import Mathlib

/-!
Verification of the song-indexing and fuzzy-search core of the
Donnerstagsspieler repository (`src/main.py`).

Strings are modelled as `List Char` (`Str`), matching Python's view of `str`
as a sequence of code points.  The character-level Unicode tables used by
`normalize_song_name` (`str.lower`, NFD decomposition, the combining-mark
category) are modelled by finite tables restricted to a representative set of
characters: ASCII plus the accented Latin letters, quote and dash glyphs that
the source's regular expressions mention.  Characters outside the tables are
fixed points, mirroring how `str.lower`/NFD fix characters without case or
decomposition.  Whitespace (`\s` and `str.strip`) is the set `wsChars`.

Similarity scores (floats in the source, produced by
`rapidfuzz.fuzz.token_sort_ratio`) are modelled exactly as non-negative
fractions `Score` with numerator/denominator, compared by cross
multiplication; the source's float arithmetic computes the same rational
values up to rounding.  Python `dict`s are modelled as association lists with
insert-or-update (`dinsert`), preserving Python's insertion-order semantics,
and Python's stable `sorted` is modelled by the stable insertion sort
`sortStable`.
-/

/-- Python strings are modelled as lists of characters. -/
abbrev Str := List Char

/-! ## Character tables for the normalizer (`normalize_song_name`, main.py 80-115) -/

/-- Finite model of `str.lower` restricted to ASCII letters and the accented
uppercase letters relevant to the data set; all other characters are fixed. -/
def lowerTable : List (Char × Char) :=
  [('A', 'a'), ('B', 'b'), ('C', 'c'), ('D', 'd'), ('E', 'e'), ('F', 'f'), ('G', 'g'),
   ('H', 'h'), ('I', 'i'), ('J', 'j'), ('K', 'k'), ('L', 'l'), ('M', 'm'), ('N', 'n'),
   ('O', 'o'), ('P', 'p'), ('Q', 'q'), ('R', 'r'), ('S', 's'), ('T', 't'), ('U', 'u'),
   ('V', 'v'), ('W', 'w'), ('X', 'x'), ('Y', 'y'), ('Z', 'z'),
   ('Ä', 'ä'), ('Ö', 'ö'), ('Ü', 'ü'),
   ('É', 'é'), ('È', 'è'), ('À', 'à'),
   ('Ç', 'ç')]

/-- Lower-case one character (model of `str.lower` applied pointwise). -/
def lowerChar (c : Char) : Char := ((lowerTable.lookup c).getD c)

/-- Finite model of Unicode canonical decomposition (NFD) restricted to the
precomposed lower-case letters of `lowerTable`; other characters are atomic. -/
def nfdTable : List (Char × Str) :=
  [('ä', ['a', '̈']), ('ö', ['o', '̈']), ('ü', ['u', '̈']),
   ('é', ['e', '́']), ('è', ['e', '̀']), ('à', ['a', '̀']),
   ('ç', ['c', '̧'])]

/-- NFD-decompose one character. -/
def nfdChar (c : Char) : Str := ((nfdTable.lookup c).getD [c])

/-- Combining marks (Unicode category Mn): modelled as the combining
diacritical marks block U+0300-U+036F, which covers every mark produced by
`nfdTable`. -/
def combiningMark (c : Char) : Bool := decide (0x300 ≤ c.toNat) && decide (c.toNat ≤ 0x36f)

/-- Model of `re.sub` with the single-quote character class of main.py line 97:
curly single quotes, the acute accent and the backtick become `'`. -/
def squoteChar (c : Char) : Char :=
  if c = '‘' ∨ c = '’' ∨ c = '´' ∨ c = Char.ofNat 96 then '\'' else c

/-- Model of `re.sub` with the double-quote character class of main.py line 98. -/
def dquoteChar (c : Char) : Char :=
  if c = '“' ∨ c = '”' ∨ c = '„' then '\"' else c

/-- Model of `re.sub` with the dash character class of main.py line 101:
en dash, em dash and the minus sign become `-`. -/
def dashChar (c : Char) : Char :=
  if c = '–' ∨ c = '—' ∨ c = '−' then '-' else c

/-- The whitespace characters matched by Python's `\s` (and stripped by
`str.strip`): ASCII whitespace plus the Unicode space characters. -/
def wsChars : Str :=
  [' ', '\t', '\n', '\x0b', '\x0c', '\r', '\x1c', '\x1d', '\x1e', '\x1f',
   '\x85', '\xa0', ' ', ' ', ' ', ' ', ' ', ' ',
   ' ', ' ', ' ', ' ', ' ', ' ', ' ',
   ' ', ' ', ' ', '　']

/-- Whitespace test (`\s`). -/
def isWS (c : Char) : Bool := wsChars.contains c

/-- Steps 1-4 of `normalize_song_name`: lower-case, NFD-decompose and drop
combining marks, then map quote and dash glyphs, exactly in source order. -/
def pipe1 (l : Str) : Str :=
  (((((l.map lowerChar).flatMap nfdChar).filter (fun c => !(combiningMark c))).map
    squoteChar).map dquoteChar).map dashChar

/-- Model of `re.sub(r'\s+', ' ', s)`: every maximal whitespace run becomes a
single space. -/
def collapseWS : Str → Str
  | [] => []
  | [c] => if isWS c then [' '] else [c]
  | c :: d :: rest =>
    if isWS c then
      if isWS d then collapseWS (d :: rest) else ' ' :: collapseWS (d :: rest)
    else c :: collapseWS (d :: rest)

/-- State machine implementing `re.sub(r'\s*-\s*', ' - ', s)` by a single
left-to-right scan: `pend` buffers a whitespace run that may become the `\s*`
before a hyphen (flushed unchanged when no hyphen follows), and the flag
records that the trailing `\s*` of a match is still swallowing whitespace. -/
def dashAux : Bool → Str → Str → Str
  | _, pend, [] => pend
  | afterDash, pend, c :: rest =>
    if isWS c then
      if afterDash then dashAux true pend rest
      else dashAux false (pend ++ [c]) rest
    else if c = '-' then ' ' :: '-' :: ' ' :: dashAux true [] rest
    else pend ++ (c :: dashAux false [] rest)

/-- Model of `re.sub(r'\s*-\s*', ' - ', s)` (main.py line 107). -/
def dashSub (l : Str) : Str := dashAux false [] l

/-- Strip trailing whitespace (right half of `str.strip`). -/
def rstripWS (l : Str) : Str := (l.reverse.dropWhile isWS).reverse

/-- Model of `str.strip()`: drop leading and trailing whitespace. -/
def stripWS (l : Str) : Str := rstripWS (l.dropWhile isWS)

/-- Model of `normalize_song_name` (main.py 80-115): the empty-input guard,
then lower-casing, accent stripping, quote/dash unification, whitespace
collapse, dash spacing and the final strip, in source order. -/
def normalize_song_name (l : Str) : Str :=
  if l = [] then [] else stripWS (dashSub (collapseWS (pipe1 l)))

example : normalize_song_name "Röck Me Amadeus".data = "rock me amadeus".data := by decide
example : normalize_song_name "Artist-Song".data = "artist - song".data := by decide
example : normalize_song_name "Artist -  Song".data = "artist - song".data := by decide
example : normalize_song_name "  Hello   World ".data = "hello world".data := by decide
example : normalize_song_name [] = [] := by decide

/-! ## Character-level fixpoint analysis for the normalizer -/

/-- Combined per-character action of steps 1-4 of the normalizer. -/
def charNf (c : Char) : Str :=
  ((((nfdChar (lowerChar c)).filter (fun x => !(combiningMark x))).map
    squoteChar).map dquoteChar).map dashChar

/-- Characters that any of the finite character tables act on. -/
def domainChars : Str :=
  ['A', 'B', 'C', 'D', 'E', 'F', 'G', 'H', 'I', 'J', 'K', 'L', 'M',
   'N', 'O', 'P', 'Q', 'R', 'S', 'T', 'U', 'V', 'W', 'X', 'Y', 'Z',
   'Ä', 'Ö', 'Ü', 'É', 'È', 'À', 'Ç',
   'ä', 'ö', 'ü', 'é', 'è', 'à', 'ç',
   '‘', '’', '´', Char.ofNat 96, '“', '”', '„', '–', '—', '−']

theorem lowerTable_keys_sub : ∀ p ∈ lowerTable, p.1 ∈ domainChars := by decide

theorem nfdTable_keys_sub : ∀ p ∈ nfdTable, p.1 ∈ domainChars := by decide

theorem lookup_eq_none_of_forall {β : Type} (t : List (Char × β)) (c : Char)
    (h : ∀ p ∈ t, c ≠ p.1) : t.lookup c = none := by
  induction t with
  | nil => rfl
  | cons p t ih =>
    obtain ⟨k, v⟩ := p
    have h1 : (c == k) = false := beq_eq_false_iff_ne.mpr (h (k, v) (by simp))
    simp only [List.lookup, h1]
    exact ih (fun q hq => h q (by simp [hq]))

theorem lowerChar_eq_self (c : Char) (h : c ∉ domainChars) : lowerChar c = c := by
  unfold lowerChar
  rw [lookup_eq_none_of_forall]
  · rfl
  · exact fun p hp he => h (he ▸ lowerTable_keys_sub p hp)

theorem nfdChar_eq_self (c : Char) (h : c ∉ domainChars) : nfdChar c = [c] := by
  unfold nfdChar
  rw [lookup_eq_none_of_forall]
  · rfl
  · exact fun p hp he => h (he ▸ nfdTable_keys_sub p hp)

theorem squoteChar_eq_self (c : Char) (h : c ∉ domainChars) : squoteChar c = c := by
  unfold squoteChar
  rw [if_neg]
  rintro (rfl | rfl | rfl | rfl) <;> exact h (by decide)

theorem dquoteChar_eq_self (c : Char) (h : c ∉ domainChars) : dquoteChar c = c := by
  unfold dquoteChar
  rw [if_neg]
  rintro (rfl | rfl | rfl) <;> exact h (by decide)

theorem dashChar_eq_self (c : Char) (h : c ∉ domainChars) : dashChar c = c := by
  unfold dashChar
  rw [if_neg]
  rintro (rfl | rfl | rfl) <;> exact h (by decide)

theorem charNf_of_not_domain (c : Char) (h : c ∉ domainChars) :
    charNf c = if combiningMark c then [] else [c] := by
  unfold charNf
  rw [lowerChar_eq_self c h, nfdChar_eq_self c h]
  by_cases hmn : combiningMark c
  · simp [hmn]
  · simp [hmn, squoteChar_eq_self c h, dquoteChar_eq_self c h, dashChar_eq_self c h]

theorem charNf_fix_domain : ∀ c ∈ domainChars, ∀ y ∈ charNf c, charNf y = [y] := by decide

/-- Every character produced by the per-character normalization pass is a
fixed point of that pass. -/
theorem charNf_fix (c y : Char) (hy : y ∈ charNf c) : charNf y = [y] := by
  by_cases hdom : c ∈ domainChars
  · exact charNf_fix_domain c hdom y hy
  · rw [charNf_of_not_domain c hdom] at hy
    by_cases hmn : combiningMark c
    · simp [hmn] at hy
    · simp [hmn] at hy
      subst hy
      rw [charNf_of_not_domain _ hdom, if_neg hmn]

theorem pipe1_nil : pipe1 [] = [] := rfl

theorem pipe1_cons (c : Char) (l : Str) : pipe1 (c :: l) = charNf c ++ pipe1 l := by
  simp [pipe1, charNf, List.filter_append]

theorem pipe1_eq_flatMap (l : Str) : pipe1 l = l.flatMap charNf := by
  induction l with
  | nil => rfl
  | cons c t ih => rw [pipe1_cons, ih, List.flatMap_cons]

/-- On a list of characters that are all fixed points, the per-character pass
is the identity. -/
theorem pipe1_id_of_fix (l : Str) (h : ∀ y ∈ l, charNf y = [y]) : pipe1 l = l := by
  induction l with
  | nil => rfl
  | cons c t ih =>
    rw [pipe1_cons, h c (by simp), ih (fun y hy => h y (by simp [hy]))]
    rfl

theorem charNf_fix_space : charNf ' ' = [' '] := by decide

theorem charNf_fix_dash : charNf '-' = ['-'] := by decide

/-- Every character of `pipe1 l` is a fixed point of the per-character pass. -/
theorem pipe1_mem_fix (l : Str) (y : Char) (hy : y ∈ pipe1 l) : charNf y = [y] := by
  rw [pipe1_eq_flatMap] at hy
  obtain ⟨c, _, hyc⟩ := List.mem_flatMap.mp hy
  exact charNf_fix c y hyc

/-! ## Equations for `collapseWS` and the shape of its output -/

theorem isWS_space : isWS ' ' = true := by decide

theorem isWS_dash : isWS '-' = false := by decide

theorem collapseWS_nil : collapseWS [] = [] := rfl

theorem collapseWS_cons_nonws (c : Char) (l : Str) (h : isWS c = false) :
    collapseWS (c :: l) = c :: collapseWS l := by
  cases l with
  | nil => simp [collapseWS, h]
  | cons d r => simp [collapseWS, h]

theorem collapseWS_cons_ws_ws (c d : Char) (r : Str) (hc : isWS c = true)
    (hd : isWS d = true) : collapseWS (c :: d :: r) = collapseWS (d :: r) := by
  simp [collapseWS, hc, hd]

theorem collapseWS_cons_ws_nonws (c d : Char) (r : Str) (hc : isWS c = true)
    (hd : isWS d = false) : collapseWS (c :: d :: r) = ' ' :: collapseWS (d :: r) := by
  simp [collapseWS, hc, hd]

theorem collapseWS_singleton_ws (c : Char) (hc : isWS c = true) : collapseWS [c] = [' '] := by
  simp [collapseWS, hc]

theorem collapseWS_ne_nil (l : Str) (h : l ≠ []) : collapseWS l ≠ [] := by
  induction l with
  | nil => exact absurd rfl h
  | cons c t ih =>
    cases t with
    | nil =>
      by_cases hc : isWS c
      · rw [collapseWS_singleton_ws c hc]; simp
      · rw [collapseWS_cons_nonws c [] (by simpa using hc)]; simp
    | cons d r =>
      by_cases hc : isWS c
      · by_cases hd : isWS d
        · rw [collapseWS_cons_ws_ws c d r hc hd]; exact ih (by simp)
        · rw [collapseWS_cons_ws_nonws c d r hc (by simpa using hd)]; simp
      · rw [collapseWS_cons_nonws c (d :: r) (by simpa using hc)]; simp

theorem collapseWS_allWS (l : Str) (h : ∀ c ∈ l, isWS c = true) (hne : l ≠ []) :
    collapseWS l = [' '] := by
  induction l with
  | nil => exact absurd rfl hne
  | cons c t ih =>
    cases t with
    | nil => exact collapseWS_singleton_ws c (h c (by simp))
    | cons d r =>
      rw [collapseWS_cons_ws_ws c d r (h c (by simp)) (h d (by simp))]
      exact ih (fun x hx => h x (by simp [hx])) (by simp)

/-- Canonical whitespace shape: every whitespace character is a plain space
and no two adjacent characters are both whitespace.  This is exactly the
shape `collapseWS` produces. -/
def canon1 : Str → Prop
  | [] => True
  | [c] => isWS c = true → c = ' '
  | c :: d :: r => (isWS c = true → c = ' ' ∧ isWS d = false) ∧ canon1 (d :: r)

theorem canon1_tail (c : Char) (l : Str) (h : canon1 (c :: l)) : canon1 l := by
  cases l with
  | nil => trivial
  | cons d r => exact h.2

theorem canon1_dropWhile (l : Str) (h : canon1 l) : canon1 (l.dropWhile isWS) := by
  induction l with
  | nil => trivial
  | cons c t ih =>
    rw [List.dropWhile_cons]
    by_cases hc : isWS c
    · simp only [hc, if_true]
      exact ih (canon1_tail c t h)
    · simp only [hc, if_false]
      exact h

theorem canon1_cons_nonws (c : Char) (l : Str) (hc : isWS c = false) (h : canon1 l) :
    canon1 (c :: l) := by
  cases l with
  | nil => intro hw; rw [hw] at hc; exact absurd hc (by simp)
  | cons d r => exact ⟨fun hw => by rw [hw] at hc; exact absurd hc (by simp), h⟩

theorem canon1_cons_space (l : Str) (h : canon1 l)
    (hl : l = [] ∨ ∃ y ys, l = y :: ys ∧ isWS y = false) : canon1 (' ' :: l) := by
  rcases hl with rfl | ⟨y, ys, rfl, hy⟩
  · intro _; rfl
  · exact ⟨fun _ => ⟨rfl, hy⟩, h⟩

theorem canon1_collapseWS (l : Str) : canon1 (collapseWS l) := by
  induction l with
  | nil => trivial
  | cons c t ih =>
    cases t with
    | nil =>
      by_cases hc : isWS c
      · rw [collapseWS_singleton_ws c hc]; intro _; rfl
      · rw [collapseWS_cons_nonws c [] (by simpa using hc)]
        exact canon1_cons_nonws c _ (by simpa using hc) trivial
    | cons d r =>
      by_cases hc : isWS c
      · by_cases hd : isWS d
        · rw [collapseWS_cons_ws_ws c d r hc hd]; exact ih
        · rw [collapseWS_cons_ws_nonws c d r hc (by simpa using hd)]
          refine canon1_cons_space _ ih (Or.inr ?_)
          refine ⟨d, collapseWS r, ?_, by simpa using hd⟩
          exact collapseWS_cons_nonws d r (by simpa using hd)
      · rw [collapseWS_cons_nonws c (d :: r) (by simpa using hc)]
        exact canon1_cons_nonws c _ (by simpa using hc) ih

/-! ## Rewriting equations for `dashSub` -/

theorem dashAux_true_dropWhile (l : Str) :
    dashAux true [] l = dashAux false [] (l.dropWhile isWS) := by
  induction l with
  | nil => rfl
  | cons c t ih =>
    by_cases hc : isWS c
    · rw [List.dropWhile_cons]
      simp only [hc, if_true]
      rw [← ih]
      simp [dashAux, hc]
    · rw [List.dropWhile_cons]
      simp only [hc, if_false]
      simp [dashAux, hc]

theorem dashAux_false_dash (p l r : Str) (hp : ∀ c ∈ p, isWS c = true)
    (h : l.dropWhile isWS = '-' :: r) :
    dashAux false p l = ' ' :: '-' :: ' ' :: dashAux true [] r := by
  induction l generalizing p with
  | nil => simp at h
  | cons c t ih =>
    by_cases hc : isWS c
    · rw [List.dropWhile_cons] at h
      simp only [hc, if_true] at h
      have := ih (p ++ [c]) (by
        intro x hx
        rcases List.mem_append.mp hx with hx1 | hx2
        · exact hp x hx1
        · simp at hx2; rw [hx2]; exact hc) h
      simpa [dashAux, hc] using this
    · rw [List.dropWhile_cons] at h
      simp only [hc, if_false] at h
      obtain ⟨rfl, rfl⟩ : c = '-' ∧ t = r := by
        constructor
        · exact (List.cons.injEq _ _ _ _ ▸ h).1
        · exact (List.cons.injEq _ _ _ _ ▸ h).2
      simp [dashAux, hc]

theorem dashAux_false_nodash (p l : Str) (hp : ∀ c ∈ p, isWS c = true)
    (h : ∀ r, l.dropWhile isWS ≠ '-' :: r) :
    dashAux false p l = p ++ dashAux false [] l := by
  induction l generalizing p with
  | nil => simp [dashAux]
  | cons c t ih =>
    by_cases hc : isWS c = true
    · have ht : ∀ r, t.dropWhile isWS ≠ '-' :: r := by
        intro r hr
        exact h r (by rw [List.dropWhile_cons, if_pos hc]; exact hr)
      have e1 : dashAux false p (c :: t) = dashAux false (p ++ [c]) t := by
        simp [dashAux, hc]
      have e2 : dashAux false [] (c :: t) = dashAux false [c] t := by
        simp [dashAux, hc]
      have hpc : ∀ x ∈ p ++ [c], isWS x = true := by
        intro x hx
        rcases List.mem_append.mp hx with hx1 | hx2
        · exact hp x hx1
        · simp at hx2; rw [hx2]; exact hc
      rw [e1, e2, ih (p ++ [c]) hpc ht, ih [c] (by intro x hx; simp at hx; rw [hx]; exact hc) ht,
        List.append_assoc]
    · have hcd : c ≠ '-' := by
        intro he
        exact h t (by rw [List.dropWhile_cons, if_neg hc, he])
      simp [dashAux, hc, hcd]

theorem dashSub_nil : dashSub [] = [] := rfl

theorem dashSub_cons_plain (c : Char) (l : Str) (hws : isWS c = false) (hd : c ≠ '-') :
    dashSub (c :: l) = c :: dashSub l := by
  simp [dashSub, dashAux, hws, hd]

theorem dashSub_cons_dash (l : Str) :
    dashSub ('-' :: l) = ' ' :: '-' :: ' ' :: dashSub (l.dropWhile isWS) := by
  show dashAux false [] ('-' :: l) = _
  simp only [dashAux, isWS_dash, Bool.false_eq_true, if_false, if_true]
  rw [dashAux_true_dropWhile]
  rfl

theorem dashSub_cons_ws_dash (c : Char) (l r : Str) (hc : isWS c = true)
    (h : l.dropWhile isWS = '-' :: r) :
    dashSub (c :: l) = ' ' :: '-' :: ' ' :: dashSub (r.dropWhile isWS) := by
  show dashAux false [] (c :: l) = _
  have h1 : dashAux false [] (c :: l) = dashAux false [c] l := by simp [dashAux, hc]
  rw [h1, dashAux_false_dash [c] l r (by intro x hx; simp at hx; rw [hx]; exact hc) h,
    dashAux_true_dropWhile]
  rfl

theorem dashSub_cons_ws_plain (c : Char) (l : Str) (hc : isWS c = true)
    (h : ∀ r, l.dropWhile isWS ≠ '-' :: r) :
    dashSub (c :: l) = c :: dashSub l := by
  show dashAux false [] (c :: l) = _
  have h1 : dashAux false [] (c :: l) = dashAux false [c] l := by simp [dashAux, hc]
  rw [h1, dashAux_false_nodash [c] l (by intro x hx; simp at hx; rw [hx]; exact hc) h]
  rfl

theorem dashSub_of_dropWhile_dash (u r : Str) (h : u.dropWhile isWS = '-' :: r) :
    dashSub u = dashSub (u.dropWhile isWS) := by
  cases u with
  | nil => simp at h
  | cons c t =>
    by_cases hc : isWS c = true
    · rw [List.dropWhile_cons, if_pos hc] at h ⊢
      rw [dashSub_cons_ws_dash c t r hc h, h, dashSub_cons_dash]
    · rw [List.dropWhile_cons, if_neg hc]

theorem dashAux_allWS (p u : Str) (hp : ∀ c ∈ p, isWS c = true)
    (hu : ∀ c ∈ u, isWS c = true) : dashAux false p u = p ++ u := by
  induction u generalizing p with
  | nil => simp [dashAux]
  | cons c t ih =>
    have hc : isWS c = true := hu c (by simp)
    have e : dashAux false p (c :: t) = dashAux false (p ++ [c]) t := by simp [dashAux, hc]
    rw [e, ih (p ++ [c]) (by
      intro x hx
      rcases List.mem_append.mp hx with hx1 | hx2
      · exact hp x hx1
      · simp at hx2; rw [hx2]; exact hc) (fun x hx => hu x (by simp [hx]))]
    simp

theorem dashSub_allWS (u : Str) (h : ∀ c ∈ u, isWS c = true) : dashSub u = u := by
  show dashAux false [] u = u
  rw [dashAux_allWS [] u (by intro x hx; simp at hx) h]
  rfl

/-! ## Core fixpoint lemma: collapsing then re-spacing a dash-spaced string -/

theorem dropWhile_cons_ws (c : Char) (l : Str) (h : isWS c = true) :
    (c :: l).dropWhile isWS = l.dropWhile isWS := by
  rw [List.dropWhile_cons, if_pos h]

theorem dropWhile_cons_nonws (c : Char) (l : Str) (h : isWS c = false) :
    (c :: l).dropWhile isWS = c :: l := by
  rw [List.dropWhile_cons, if_neg (by simp [h])]

theorem dropWhile_head_not (p : Char → Bool) (l t : Str) (c : Char)
    (h : l.dropWhile p = c :: t) : p c = false := by
  induction l with
  | nil => simp at h
  | cons a l ih =>
    rw [List.dropWhile_cons] at h
    by_cases ha : p a = true
    · rw [if_pos ha] at h; exact ih h
    · rw [if_neg ha] at h
      injection h with h1 _
      rw [← h1]
      simpa using ha

/-- After `dashSub` of a canonically-spaced string, collapsing whitespace and
re-running `dashSub` changes nothing: the double spaces that `dashSub` creates
between adjacent dash groups collapse and are recreated identically. -/
theorem dashSub_collapse_fix : ∀ n : Nat, ∀ e : Str, e.length ≤ n → canon1 e →
    dashSub (collapseWS (dashSub e)) = dashSub e := by
  intro n
  induction n with
  | zero =>
    intro e he _
    have : e = [] := List.eq_nil_of_length_eq_zero (Nat.le_zero.mp he)
    subst this
    rfl
  | succ n ih =>
    intro e he hc
    cases e with
    | nil => rfl
    | cons c rest =>
      have hlen : rest.length ≤ n := Nat.le_of_succ_le_succ (by simpa using he)
      by_cases hws : isWS c = true
      · cases rest with
        | nil =>
          have hsp : c = ' ' := hc hws
          subst hsp
          decide
        | cons d r2 =>
          obtain ⟨hsp, hd⟩ := hc.1 hws
          subst hsp
          by_cases hd2 : d = '-'
          · subst hd2
            have hrw : dashSub (' ' :: '-' :: r2) = dashSub ('-' :: r2) := by
              rw [dashSub_cons_ws_dash ' ' ('-' :: r2) r2 isWS_space
                (dropWhile_cons_nonws '-' r2 isWS_dash), dashSub_cons_dash]
            rw [hrw]
            exact ih ('-' :: r2) hlen (canon1_tail _ _ hc)
          · have hr : ∀ r, (d :: r2).dropWhile isWS ≠ '-' :: r := by
              intro r hr
              rw [dropWhile_cons_nonws d r2 hd] at hr
              injection hr with h1 _
              exact hd2 h1
            rw [dashSub_cons_ws_plain ' ' (d :: r2) isWS_space hr,
              dashSub_cons_plain d r2 hd hd2,
              collapseWS_cons_ws_nonws ' ' d _ isWS_space hd,
              collapseWS_cons_nonws d _ hd]
            have hr2 : ∀ r, (d :: collapseWS (dashSub r2)).dropWhile isWS ≠ '-' :: r := by
              intro r hrr
              rw [dropWhile_cons_nonws d _ hd] at hrr
              injection hrr with h1 _
              exact hd2 h1
            rw [dashSub_cons_ws_plain ' ' _ isWS_space hr2,
              dashSub_cons_plain d _ hd hd2]
            have hih := ih (d :: r2) hlen (canon1_tail _ _ hc)
            rw [dashSub_cons_plain d r2 hd hd2, collapseWS_cons_nonws d _ hd,
              dashSub_cons_plain d _ hd hd2] at hih
            injection hih with _ hih2
            rw [hih2]
      · have hws' : isWS c = false := by simpa using hws
        by_cases hdash : c = '-'
        · subst hdash
          rw [dashSub_cons_dash rest]
          cases hdw : rest.dropWhile isWS with
          | nil => decide
          | cons c2 r2 =>
            have hcr' : canon1 (c2 :: r2) :=
              hdw ▸ canon1_dropWhile rest (canon1_tail _ _ hc)
            have hlen2 : (c2 :: r2).length ≤ n :=
              hdw ▸ le_trans (List.dropWhile_sublist _).length_le hlen
            have ihz := ih (c2 :: r2) hlen2 hcr'
            have hc2 : isWS c2 = false := dropWhile_head_not isWS rest r2 c2 hdw
            by_cases hc2d : c2 = '-'
            · subst hc2d
              rw [dashSub_cons_dash r2] at ihz ⊢
              rw [collapseWS_cons_ws_nonws ' ' '-' _ isWS_space isWS_dash,
                collapseWS_cons_nonws '-' _ isWS_dash,
                collapseWS_cons_ws_ws ' ' ' ' _ isWS_space isWS_space,
                collapseWS_cons_ws_nonws ' ' '-' _ isWS_space isWS_dash,
                collapseWS_cons_nonws '-' _ isWS_dash]
              rw [collapseWS_cons_ws_nonws ' ' '-' _ isWS_space isWS_dash,
                collapseWS_cons_nonws '-' _ isWS_dash] at ihz
              rw [dashSub_cons_ws_dash ' '
                ('-' :: ' ' :: '-' :: collapseWS (' ' :: dashSub (List.dropWhile isWS r2)))
                (' ' :: '-' :: collapseWS (' ' :: dashSub (List.dropWhile isWS r2)))
                isWS_space (dropWhile_cons_nonws _ _ isWS_dash)]
              rw [dropWhile_cons_ws ' ' _ isWS_space,
                dropWhile_cons_nonws '-' _ isWS_dash]
              have hwsd := dashSub_of_dropWhile_dash
                (' ' :: '-' :: collapseWS (' ' :: dashSub (List.dropWhile isWS r2)))
                (collapseWS (' ' :: dashSub (List.dropWhile isWS r2)))
                (by rw [dropWhile_cons_ws ' ' _ isWS_space,
                  dropWhile_cons_nonws '-' _ isWS_dash])
              rw [dropWhile_cons_ws ' ' _ isWS_space,
                dropWhile_cons_nonws '-' _ isWS_dash] at hwsd
              rw [← hwsd, ihz]
            · rw [dashSub_cons_plain c2 r2 hc2 hc2d] at ihz ⊢
              rw [collapseWS_cons_ws_nonws ' ' '-' _ isWS_space isWS_dash,
                collapseWS_cons_nonws '-' _ isWS_dash,
                collapseWS_cons_ws_nonws ' ' c2 _ isWS_space hc2,
                collapseWS_cons_nonws c2 _ hc2]
              rw [collapseWS_cons_nonws c2 _ hc2] at ihz
              rw [dashSub_cons_ws_dash ' '
                ('-' :: ' ' :: c2 :: collapseWS (dashSub r2))
                (' ' :: c2 :: collapseWS (dashSub r2))
                isWS_space (dropWhile_cons_nonws _ _ isWS_dash)]
              rw [dropWhile_cons_ws ' ' _ isWS_space, dropWhile_cons_nonws c2 _ hc2]
              rw [dashSub_cons_plain c2 _ hc2 hc2d] at ihz ⊢
              injection ihz with _ ihz2
              rw [ihz2]
        · rw [dashSub_cons_plain c rest hws' hdash,
            collapseWS_cons_nonws c _ hws',
            dashSub_cons_plain c _ hws' hdash,
            ih rest hlen (canon1_tail _ _ hc)]

/-! ## Trailing-strip equations -/

theorem rstripWS_nil : rstripWS [] = [] := rfl

theorem rstripWS_eq_nil_iff (l : Str) : rstripWS l = [] ↔ ∀ c ∈ l, isWS c = true := by
  unfold rstripWS
  rw [List.reverse_eq_nil_iff, List.dropWhile_eq_nil_iff]
  constructor
  · exact fun h c hc => h c (List.mem_reverse.mpr hc)
  · exact fun h c hc => h c (List.mem_reverse.mp hc)

theorem rstripWS_cons (c : Char) (l : Str) :
    rstripWS (c :: l) =
      if rstripWS l = [] then (if isWS c = true then [] else [c]) else c :: rstripWS l := by
  unfold rstripWS
  rw [List.reverse_cons, List.dropWhile_append]
  by_cases h : l.reverse.dropWhile isWS = []
  · rw [if_pos (by simp [h]), if_pos (by simp [h])]
    by_cases hc : isWS c = true
    · rw [if_pos hc]
      simp [List.dropWhile, hc]
    · have hc' : isWS c = false := by simpa using hc
      rw [if_neg hc]
      simp [List.dropWhile, hc']
  · rw [if_neg (by simpa using h), if_neg (by simpa using h)]
    simp

theorem rstripWS_cons_congr (c : Char) (y1 y2 : Str) (h : rstripWS y1 = rstripWS y2) :
    rstripWS (c :: y1) = rstripWS (c :: y2) := by
  rw [rstripWS_cons, rstripWS_cons, h]

theorem rstripWS_append (u v : Str) :
    rstripWS (u ++ v) = if rstripWS v = [] then rstripWS u else u ++ rstripWS v := by
  unfold rstripWS
  rw [List.reverse_append, List.dropWhile_append]
  by_cases h : v.reverse.dropWhile isWS = []
  · rw [if_pos (by simp [h]), if_pos (by simp [h])]
  · rw [if_neg (by simpa using h), if_neg (by simpa using h)]
    simp

theorem rstripWS_append_congr (u y1 y2 : Str) (h : rstripWS y1 = rstripWS y2) :
    rstripWS (u ++ y1) = rstripWS (u ++ y2) := by
  rw [rstripWS_append, rstripWS_append, h]

theorem rstripWS_cons3_congr (a b c : Char) (y1 y2 : Str) (h : rstripWS y1 = rstripWS y2) :
    rstripWS (a :: b :: c :: y1) = rstripWS (a :: b :: c :: y2) :=
  rstripWS_cons_congr _ _ _ (rstripWS_cons_congr _ _ _ (rstripWS_cons_congr _ _ _ h))

/-- Leading and trailing strips commute. -/
theorem dropWhile_rstripWS (l : Str) :
    (rstripWS l).dropWhile isWS = rstripWS (l.dropWhile isWS) := by
  induction l with
  | nil => rfl
  | cons c t ih =>
    by_cases hc : isWS c = true
    · rw [dropWhile_cons_ws c t hc, rstripWS_cons]
      by_cases ht : rstripWS t = []
      · rw [if_pos ht, if_pos hc]
        have : t.dropWhile isWS = [] :=
          List.dropWhile_eq_nil_iff.mpr (rstripWS_eq_nil_iff t |>.mp ht)
        rw [this]
        rfl
      · rw [if_neg ht, dropWhile_cons_ws c _ hc, ih]
    · have hc' : isWS c = false := by simpa using hc
      rw [dropWhile_cons_nonws c t hc', rstripWS_cons]
      by_cases ht : rstripWS t = []
      · rw [if_pos ht, if_neg hc]
        exact dropWhile_cons_nonws c [] hc'
      · rw [if_neg ht, dropWhile_cons_nonws c _ hc']

/-! ## Strip absorption around `dashSub` -/

theorem stripWS_cons_ws (c : Char) (y : Str) (hc : isWS c = true) :
    stripWS (c :: y) = stripWS y := by
  unfold stripWS
  rw [dropWhile_cons_ws c y hc]

theorem strip_dashSub_dropWhile (w : Str) :
    stripWS (dashSub (w.dropWhile isWS)) = stripWS (dashSub w) := by
  induction w with
  | nil => rfl
  | cons c rest ih =>
    by_cases hc : isWS c = true
    · rw [dropWhile_cons_ws c rest hc]
      cases hdw : rest.dropWhile isWS with
      | nil =>
        have hnd : ∀ r, rest.dropWhile isWS ≠ '-' :: r := by
          intro r hr; rw [hdw] at hr; exact List.noConfusion hr
        rw [dashSub_cons_ws_plain c rest hc hnd, stripWS_cons_ws c _ hc]
        rw [hdw] at ih
        exact ih
      | cons c2 r2 =>
        by_cases hc2 : c2 = '-'
        · subst hc2
          rw [dashSub_cons_ws_dash c rest r2 hc hdw, dashSub_cons_dash r2]
        · have hnd : ∀ r, rest.dropWhile isWS ≠ '-' :: r := by
            intro r hr; rw [hdw] at hr; injection hr with h1 _; exact hc2 h1
          rw [dashSub_cons_ws_plain c rest hc hnd, stripWS_cons_ws c _ hc]
          rw [hdw] at ih
          exact ih
    · have hc' : isWS c = false := by simpa using hc
      rw [dropWhile_cons_nonws c rest hc']

theorem rstrip_dashSub_rstrip : ∀ n : Nat, ∀ w : Str, w.length ≤ n →
    rstripWS (dashSub (rstripWS w)) = rstripWS (dashSub w) := by
  intro n
  induction n with
  | zero =>
    intro w hw
    have : w = [] := List.eq_nil_of_length_eq_zero (Nat.le_zero.mp hw)
    subst this
    rfl
  | succ n ih =>
    intro w hw
    cases w with
    | nil => rfl
    | cons c rest =>
      have hlen : rest.length ≤ n := Nat.le_of_succ_le_succ (by simpa using hw)
      by_cases hre : rstripWS rest = []
      · have hallws : ∀ x ∈ rest, isWS x = true := (rstripWS_eq_nil_iff rest).mp hre
        have hdwnil : rest.dropWhile isWS = [] := List.dropWhile_eq_nil_iff.mpr hallws
        rw [rstripWS_cons, if_pos hre]
        by_cases hc : isWS c = true
        · rw [if_pos hc]
          have h1 : dashSub (c :: rest) = c :: rest := dashSub_allWS _ (by
            intro x hx
            rcases List.mem_cons.mp hx with rfl | hx2
            · exact hc
            · exact hallws x hx2)
          rw [h1, rstripWS_cons, if_pos hre, if_pos hc]
          rfl
        · have hc' : isWS c = false := by simpa using hc
          rw [if_neg hc]
          by_cases hcd : c = '-'
          · subst hcd
            rw [dashSub_cons_dash rest, hdwnil]
            decide
          · rw [dashSub_cons_plain c rest hc' hcd, dashSub_allWS rest hallws,
              dashSub_cons_plain c [] hc' hcd, dashSub_nil]
            simp [rstripWS_cons, rstripWS_nil, hre, hc]
      · rw [rstripWS_cons, if_neg hre]
        by_cases hc : isWS c = true
        · cases hdw : rest.dropWhile isWS with
          | nil =>
            exact absurd ((rstripWS_eq_nil_iff rest).mpr (List.dropWhile_eq_nil_iff.mp hdw)) hre
          | cons c2 r2 =>
            have hlr2 : r2.length < rest.length := by
              have h5 : (rest.dropWhile isWS).length ≤ rest.length :=
                (List.dropWhile_sublist _).length_le
              rw [hdw] at h5
              simp only [List.length_cons] at h5
              omega
            by_cases hc2 : c2 = '-'
            · subst hc2
              rw [dashSub_cons_ws_dash c rest r2 hc hdw]
              have hcm := dropWhile_rstripWS rest
              rw [hdw] at hcm
              by_cases hr2 : rstripWS r2 = []
              · have he2 : rstripWS ('-' :: r2) = ['-'] := by
                  rw [rstripWS_cons, if_pos hr2]
                  rfl
                rw [he2] at hcm
                rw [dashSub_cons_ws_dash c (rstripWS rest) [] hc hcm]
                have hr2' : r2.dropWhile isWS = [] :=
                  List.dropWhile_eq_nil_iff.mpr ((rstripWS_eq_nil_iff r2).mp hr2)
                rw [hr2']
                rfl
              · have he2 : rstripWS ('-' :: r2) = '-' :: rstripWS r2 := by
                  rw [rstripWS_cons, if_neg hr2]
                rw [he2] at hcm
                rw [dashSub_cons_ws_dash c (rstripWS rest) (rstripWS r2) hc hcm]
                refine rstripWS_cons3_congr ' ' '-' ' ' _ _ ?_
                rw [dropWhile_rstripWS r2]
                refine ih (r2.dropWhile isWS) ?_
                have h6 : (r2.dropWhile isWS).length ≤ r2.length :=
                  (List.dropWhile_sublist _).length_le
                omega
            · have hnd : ∀ r, rest.dropWhile isWS ≠ '-' :: r := by
                intro r hr; rw [hdw] at hr; injection hr with h1 _; exact hc2 h1
              have hc2' : isWS c2 = false := dropWhile_head_not isWS rest r2 c2 hdw
              rw [dashSub_cons_ws_plain c rest hc hnd]
              have hcm := dropWhile_rstripWS rest
              rw [hdw] at hcm
              have hnd2 : ∀ r, (rstripWS rest).dropWhile isWS ≠ '-' :: r := by
                intro r hr
                rw [hcm, rstripWS_cons] at hr
                by_cases h3 : rstripWS r2 = []
                · rw [if_pos h3, if_neg (by simp [hc2'])] at hr
                  injection hr with h4 _
                  exact hc2 h4
                · rw [if_neg h3] at hr
                  injection hr with h4 _
                  exact hc2 h4
              rw [dashSub_cons_ws_plain c (rstripWS rest) hc hnd2]
              exact rstripWS_cons_congr c _ _ (ih rest hlen)
        · have hc' : isWS c = false := by simpa using hc
          by_cases hcd : c = '-'
          · subst hcd
            rw [dashSub_cons_dash rest, dashSub_cons_dash (rstripWS rest)]
            refine rstripWS_cons3_congr ' ' '-' ' ' _ _ ?_
            rw [dropWhile_rstripWS rest]
            exact ih (rest.dropWhile isWS) (le_trans (List.dropWhile_sublist _).length_le hlen)
          · rw [dashSub_cons_plain c rest hc' hcd, dashSub_cons_plain c (rstripWS rest) hc' hcd]
            exact rstripWS_cons_congr c _ _ (ih rest hlen)

/-! ## `collapseWS` commutes with both strips -/

theorem collapseWS_dropWhile (x : Str) :
    collapseWS (x.dropWhile isWS) = (collapseWS x).dropWhile isWS := by
  induction x with
  | nil => rfl
  | cons c t ih =>
    by_cases hc : isWS c = true
    · rw [dropWhile_cons_ws c t hc]
      cases t with
      | nil =>
        rw [collapseWS_singleton_ws c hc]
        decide
      | cons d r =>
        by_cases hd : isWS d = true
        · rw [collapseWS_cons_ws_ws c d r hc hd, ← ih, dropWhile_cons_ws d r hd]
        · have hd' : isWS d = false := by simpa using hd
          have e1 : (d :: r).dropWhile isWS = d :: r := dropWhile_cons_nonws d r hd'
          have e2 : collapseWS (c :: d :: r) = ' ' :: collapseWS (d :: r) :=
            collapseWS_cons_ws_nonws c d r hc hd'
          have e3 : collapseWS (d :: r) = d :: collapseWS r := collapseWS_cons_nonws d r hd'
          rw [e1, e2, dropWhile_cons_ws ' ' _ isWS_space, e3, dropWhile_cons_nonws d _ hd']
    · have hc' : isWS c = false := by simpa using hc
      rw [dropWhile_cons_nonws c t hc', collapseWS_cons_nonws c t hc',
        dropWhile_cons_nonws c _ hc']

theorem collapseWS_rstripWS (x : Str) :
    collapseWS (rstripWS x) = rstripWS (collapseWS x) := by
  induction x with
  | nil => rfl
  | cons c t ih =>
    rw [rstripWS_cons]
    by_cases ht : rstripWS t = []
    · rw [if_pos ht]
      have hallws : ∀ y ∈ t, isWS y = true := (rstripWS_eq_nil_iff t).mp ht
      by_cases hc : isWS c = true
      · rw [if_pos hc]
        have h1 : collapseWS (c :: t) = [' '] := collapseWS_allWS (c :: t) (by
          intro y hy
          rcases List.mem_cons.mp hy with rfl | hy2
          · exact hc
          · exact hallws y hy2) (by simp)
        rw [h1]
        rfl
      · have hc' : isWS c = false := by simpa using hc
        rw [if_neg hc]
        cases t with
        | nil =>
          have e1 : collapseWS [c] = [c] := collapseWS_cons_nonws c [] hc'
          rw [e1, rstripWS_cons, if_pos (show rstripWS ([] : Str) = [] from rfl), if_neg hc]
        | cons d r =>
          rw [collapseWS_cons_nonws c (d :: r) hc',
            collapseWS_allWS (d :: r) hallws (by simp)]
          have e1 : collapseWS [c] = [c] := collapseWS_cons_nonws c [] hc'
          rw [e1, rstripWS_cons, if_pos (show rstripWS [' '] = [] by decide), if_neg hc]
    · rw [if_neg ht]
      have hne : rstripWS t ≠ [] := ht
      by_cases hc : isWS c = true
      · cases t with
        | nil => exact absurd rfl hne
        | cons d r =>
          by_cases hd : isWS d = true
          · have hrt : rstripWS (d :: r) = d :: rstripWS r := by
              rw [rstripWS_cons]
              rcases Decidable.em (rstripWS r = []) with h2 | h2
              · exfalso
                apply hne
                rw [rstripWS_cons, if_pos h2, if_pos hd]
              · rw [if_neg h2]
            rw [hrt, collapseWS_cons_ws_ws c d _ hc hd, ← hrt,
              collapseWS_cons_ws_ws c d r hc hd, ih]
          · have hd' : isWS d = false := by simpa using hd
            have hrt : rstripWS (d :: r) = d :: rstripWS r ∨ rstripWS (d :: r) = [d] := by
              rw [rstripWS_cons]
              rcases Decidable.em (rstripWS r = []) with h2 | h2
              · right; rw [if_pos h2, if_neg (by simp [hd'])]
              · left; rw [if_neg h2]
            rcases hrt with hrt | hrt
            · have h3 : rstripWS (collapseWS (d :: r)) ≠ [] := by
                rw [← ih, hrt]
                exact collapseWS_ne_nil (d :: rstripWS r) (by simp)
              rw [hrt, collapseWS_cons_ws_nonws c d (rstripWS r) hc hd', ← hrt, ih,
                collapseWS_cons_ws_nonws c d r hc hd', rstripWS_cons, if_neg h3]
            · have h5 : collapseWS [d] = [d] := collapseWS_cons_nonws d [] hd'
              have h6 : rstripWS (collapseWS (d :: r)) = [d] := by rw [← ih, hrt, h5]
              rw [hrt, collapseWS_cons_ws_nonws c d [] hc hd', h5,
                collapseWS_cons_ws_nonws c d r hc hd', rstripWS_cons,
                if_neg (by rw [h6]; simp), h6]
      · have hc' : isWS c = false := by simpa using hc
        cases hrt : rstripWS t with
        | nil => exact absurd hrt hne
        | cons e s =>
          rw [← hrt, collapseWS_cons_nonws c _ hc', collapseWS_cons_nonws c t hc', ih,
            rstripWS_cons]
          have h3 : rstripWS (collapseWS t) ≠ [] := by
            rw [← ih, hrt]
            exact collapseWS_ne_nil (e :: s) (by simp)
          rw [if_neg h3]

/-! ## Character provenance through the whitespace stages -/

theorem mem_stripWS (y : Char) (l : Str) (hy : y ∈ stripWS l) : y ∈ l := by
  unfold stripWS rstripWS at hy
  have h1 := List.mem_reverse.mp hy
  have h2 := (List.dropWhile_sublist _).subset h1
  have h3 := List.mem_reverse.mp h2
  exact (List.dropWhile_sublist _).subset h3

theorem mem_collapseWS (y : Char) (l : Str) (hy : y ∈ collapseWS l) : y = ' ' ∨ y ∈ l := by
  induction l with
  | nil => exact absurd hy (by simp [collapseWS_nil])
  | cons c t ih =>
    cases t with
    | nil =>
      by_cases hc : isWS c = true
      · rw [collapseWS_singleton_ws c hc] at hy
        simp at hy
        exact Or.inl hy
      · rw [collapseWS_cons_nonws c [] (by simpa using hc)] at hy
        simp [collapseWS_nil] at hy
        exact Or.inr (by simp [hy])
    | cons d r =>
      by_cases hc : isWS c = true
      · by_cases hd : isWS d = true
        · rw [collapseWS_cons_ws_ws c d r hc hd] at hy
          rcases ih hy with h | h
          · exact Or.inl h
          · exact Or.inr (List.mem_cons_of_mem c h)
        · rw [collapseWS_cons_ws_nonws c d r hc (by simpa using hd)] at hy
          rcases List.mem_cons.mp hy with rfl | hy2
          · exact Or.inl rfl
          · rcases ih hy2 with h | h
            · exact Or.inl h
            · exact Or.inr (List.mem_cons_of_mem c h)
      · rw [collapseWS_cons_nonws c (d :: r) (by simpa using hc)] at hy
        rcases List.mem_cons.mp hy with rfl | hy2
        · exact Or.inr (by simp)
        · rcases ih hy2 with h | h
          · exact Or.inl h
          · exact Or.inr (List.mem_cons_of_mem c h)

theorem mem_dashAux (y : Char) (b : Bool) (p l : Str) (hy : y ∈ dashAux b p l) :
    y = ' ' ∨ y = '-' ∨ y ∈ p ∨ y ∈ l := by
  induction l generalizing b p with
  | nil =>
    right; right; left
    simpa [dashAux] using hy
  | cons c rest ih =>
    by_cases hc : isWS c = true
    · cases b with
      | true =>
        have hy2 : y ∈ dashAux true p rest := by simpa [dashAux, hc] using hy
        rcases ih true p hy2 with h | h | h | h
        · exact Or.inl h
        · exact Or.inr (Or.inl h)
        · exact Or.inr (Or.inr (Or.inl h))
        · exact Or.inr (Or.inr (Or.inr (List.mem_cons_of_mem c h)))
      | false =>
        have hy2 : y ∈ dashAux false (p ++ [c]) rest := by simpa [dashAux, hc] using hy
        rcases ih false (p ++ [c]) hy2 with h | h | h | h
        · exact Or.inl h
        · exact Or.inr (Or.inl h)
        · rcases List.mem_append.mp h with h1 | h1
          · exact Or.inr (Or.inr (Or.inl h1))
          · simp at h1
            subst h1
            exact Or.inr (Or.inr (Or.inr (by simp)))
        · exact Or.inr (Or.inr (Or.inr (List.mem_cons_of_mem c h)))
    · by_cases hcd : c = '-'
      · subst hcd
        have hy2 : y ∈ (' ' :: '-' :: ' ' :: dashAux true [] rest) := by
          simpa [dashAux, hc] using hy
        rcases List.mem_cons.mp hy2 with rfl | hy3
        · exact Or.inl rfl
        rcases List.mem_cons.mp hy3 with rfl | hy4
        · exact Or.inr (Or.inl rfl)
        rcases List.mem_cons.mp hy4 with rfl | hy5
        · exact Or.inl rfl
        rcases ih true [] hy5 with h | h | h | h
        · exact Or.inl h
        · exact Or.inr (Or.inl h)
        · simp at h
        · exact Or.inr (Or.inr (Or.inr (List.mem_cons_of_mem _ h)))
      · have hy2 : y ∈ p ++ (c :: dashAux false [] rest) := by
          simpa [dashAux, hc, hcd] using hy
        rcases List.mem_append.mp hy2 with h1 | h1
        · exact Or.inr (Or.inr (Or.inl h1))
        rcases List.mem_cons.mp h1 with rfl | h2
        · exact Or.inr (Or.inr (Or.inr (by simp)))
        rcases ih false [] h2 with h | h | h | h
        · exact Or.inl h
        · exact Or.inr (Or.inl h)
        · simp at h
        · exact Or.inr (Or.inr (Or.inr (List.mem_cons_of_mem _ h)))

theorem mem_dashSub (y : Char) (l : Str) (hy : y ∈ dashSub l) :
    y = ' ' ∨ y = '-' ∨ y ∈ l := by
  rcases mem_dashAux y false [] l hy with h | h | h | h
  · exact Or.inl h
  · exact Or.inr (Or.inl h)
  · simp at h
  · exact Or.inr (Or.inr h)

theorem stages_mem_fix (m : Str) (hm : ∀ y ∈ m, charNf y = [y]) (y : Char)
    (hy : y ∈ stripWS (dashSub (collapseWS m))) : charNf y = [y] := by
  have h1 := mem_stripWS _ _ hy
  rcases mem_dashSub _ _ h1 with rfl | rfl | h2
  · exact charNf_fix_space
  · exact charNf_fix_dash
  · rcases mem_collapseWS _ _ h2 with rfl | h3
    · exact charNf_fix_space
    · exact hm y h3

/-! ## Idempotence of the normalizer -/

theorem stripWS_alt (y : Str) : stripWS y = (rstripWS y).dropWhile isWS := by
  unfold stripWS
  exact (dropWhile_rstripWS y).symm

/-- Prepending a strip does not change the result of the collapse-dash-strip
tail of the normalizer. -/
theorem strip_dash_collapse_strip (x : Str) :
    stripWS (dashSub (collapseWS (stripWS x))) = stripWS (dashSub (collapseWS x)) := by
  have step1 : collapseWS (stripWS x) = rstripWS ((collapseWS x).dropWhile isWS) := by
    unfold stripWS
    rw [collapseWS_rstripWS, collapseWS_dropWhile]
  rw [step1]
  have step2 : stripWS (dashSub (rstripWS ((collapseWS x).dropWhile isWS))) =
      stripWS (dashSub ((collapseWS x).dropWhile isWS)) := by
    rw [stripWS_alt, stripWS_alt (dashSub ((collapseWS x).dropWhile isWS)),
      rstrip_dashSub_rstrip ((collapseWS x).dropWhile isWS).length _ (le_refl _)]
  rw [step2, strip_dashSub_dropWhile]

theorem normalize_song_name_idem (l : Str) :
    normalize_song_name (normalize_song_name l) = normalize_song_name l := by
  by_cases hl : l = []
  · rw [hl]
    rfl
  · have hnl : normalize_song_name l = stripWS (dashSub (collapseWS (pipe1 l))) := by
      unfold normalize_song_name
      rw [if_neg hl]
    rw [hnl]
    by_cases hdnil : stripWS (dashSub (collapseWS (pipe1 l))) = []
    · rw [hdnil]
      rfl
    · unfold normalize_song_name
      rw [if_neg hdnil]
      have hfix : pipe1 (stripWS (dashSub (collapseWS (pipe1 l)))) =
          stripWS (dashSub (collapseWS (pipe1 l))) :=
        pipe1_id_of_fix _ (fun y hy => stages_mem_fix (pipe1 l) (pipe1_mem_fix l) y hy)
      rw [hfix, strip_dash_collapse_strip (dashSub (collapseWS (pipe1 l))),
        dashSub_collapse_fix (collapseWS (pipe1 l)).length _ (le_refl _)
          (canon1_collapseWS _)]

/-- C3: `normalize_song_name` is total (it is a Lean function on all of
`Str`), idempotent on every string, and maps empty input to the empty
string. -/
theorem claim_C3_normalize_idempotent_total :
    (∀ s : Str, normalize_song_name (normalize_song_name s) = normalize_song_name s) ∧
      normalize_song_name [] = [] :=
  ⟨normalize_song_name_idem, rfl⟩

/-! ## Scores, dictionaries and stable sorting

Similarity scores are floats in the source; here they are exact fractions
compared by cross multiplication.  Python `dict`s become association lists
with `dinsert` (update in place, append if new), and Python's stable
`sorted(..., reverse=True)` becomes the stable insertion sort `sortStable`. -/

/-- Exact non-negative fraction `num / den` modelling a rapidfuzz score. -/
structure Score where
  num : Nat
  den : Nat
deriving DecidableEq

/-- Strict comparison of scores by cross multiplication. -/
def Score.lt (a b : Score) : Bool := decide (a.num * b.den < b.num * a.den)

/-- Score at least the integer threshold `t` (the `score_cutoff` test). -/
def scoreAtLeastNat (s : Score) (t : Nat) : Bool := decide (t * s.den ≤ s.num)

/-- A score whose value is exactly 100. -/
def Score.is100 (s : Score) : Prop := s.num = 100 * s.den

/-- Python dict insert: update the value in place when the key exists,
append a new binding otherwise. -/
def dinsert {α β : Type} [DecidableEq α] (k : α) (v : β) :
    List (α × β) → List (α × β)
  | [] => [(k, v)]
  | (k2, v2) :: rest => if k2 = k then (k2, v) :: rest else (k2, v2) :: dinsert k v rest

/-- Python dict lookup. -/
def alookup {α β : Type} [DecidableEq α] (k : α) : List (α × β) → Option β
  | [] => none
  | (k2, v2) :: rest => if k2 = k then some v2 else alookup k rest

/-- Insert `x` behind every element strictly greater than it (per `gt`). -/
def insByGt {α : Type} (gt : α → α → Bool) (x : α) : List α → List α
  | [] => [x]
  | y :: ys => if gt y x then y :: insByGt gt x ys else x :: y :: ys

/-- Stable insertion sort: with `gt a b` meaning "a strictly precedes b",
equal elements keep their input order, like Python's `sorted`. -/
def sortStable {α : Type} (gt : α → α → Bool) (l : List α) : List α :=
  l.foldr (insByGt gt) []

/-- Code-point lexicographic order on strings (Python string `<`). -/
def ltStr : Str → Str → Bool
  | [], [] => false
  | [], _ :: _ => true
  | _ :: _, [] => false
  | a :: as, b :: bs => if a < b then true else if b < a then false else ltStr as bs

/-- Ascending insertion for the string sort. -/
def insAsc (v : Str) : List Str → List Str
  | [] => [v]
  | w :: ws => if ltStr v w then v :: w :: ws else w :: insAsc v ws

/-- Python `sorted` on a list of strings. -/
def sortStrs (l : List Str) : List Str := l.foldr insAsc []

/-- Python substring test `p in s` (contiguous occurrence). -/
def substrOccurs (p s : Str) : Bool :=
  (List.range (s.length + 1)).any (fun i => decide ((s.drop i).take p.length = p))

/-! ## The token-sort similarity (`rapidfuzz.fuzz.token_sort_ratio`) -/

/-- One inner step of the longest-common-subsequence row update. -/
def lcsAux (x : Char) : Str → List Nat → Nat → List Nat
  | [], _, _ => []
  | bj :: bs, prev, cur =>
    match prev with
    | [] => []
    | pj :: rest =>
      let up := rest.headD 0
      let v := if x = bj then pj + 1 else max cur up
      v :: lcsAux x bs rest v

/-- Next row of the LCS dynamic program. -/
def lcsRow (x : Char) (b : Str) (prev : List Nat) : List Nat :=
  0 :: lcsAux x b prev 0

/-- Length of the longest common subsequence of `a` and `b` (row DP). -/
def lcsLen (a b : Str) : Nat :=
  (a.foldl (fun row x => lcsRow x b row) (List.replicate (b.length + 1) 0)).getLastD 0

/-- Normalized indel similarity scaled to 0-100 (`fuzz.ratio`):
`100 * (1 - dist/(|a|+|b|))` with `dist = |a|+|b| - 2*lcs`, i.e.
`200*lcs/(|a|+|b|)`; two empty strings score 100. -/
def simScore (a b : Str) : Score :=
  if a.length + b.length = 0 then ⟨100, 1⟩
  else ⟨200 * lcsLen a b, a.length + b.length⟩

/-- Python `str.split()`: maximal runs of non-whitespace characters. -/
def splitWSAux : Str → Str → List Str
  | [], cur => if cur = [] then [] else [cur.reverse]
  | c :: rest, cur =>
    if isWS c then
      if cur = [] then splitWSAux rest [] else cur.reverse :: splitWSAux rest []
    else splitWSAux rest (c :: cur)

/-- Python `str.split()` on whitespace. -/
def splitWS (s : Str) : List Str := splitWSAux s []

/-- Join tokens with single spaces (`' '.join`). -/
def joinSp : List Str → Str
  | [] => []
  | [t] => t
  | t :: ts => t ++ (' ' :: joinSp ts)

/-- `fuzz.token_sort_ratio`: split both strings into whitespace tokens, sort,
rejoin with single spaces, then take the indel similarity ratio. -/
def tokenSortSim (a b : Str) : Score :=
  simScore (joinSp (sortStrs (splitWS a))) (joinSp (sortStrs (splitWS b)))

example : tokenSortSim "amadeus rock me".data "falco - rock me amadeus".data = ⟨3000, 38⟩ := by
  decide

/-! ## Tabular input and the index builder (`build_song_index`, main.py 462-535)

A worksheet is the pandas frame `df`: `rows` is the grid of cells, a cell
being `none` for NaN and `some` of the cell's string otherwise; `ncols` is
`len(df.columns)`. -/

/-- One worksheet of the spreadsheet. -/
structure Sheet where
  name : Str
  ncols : Nat
  rows : List (List (Option Str))
deriving DecidableEq

/-- Cell access `df.iloc[r, c]`; out-of-range cells read as NaN. -/
def Sheet.cell (s : Sheet) (r c : Nat) : Option Str :=
  (((s.rows.get? r).getD []).get? c).getD none

/-- The per-cluster record stored in the index (`cluster_info`). -/
structure ClusterInfo where
  worksheet : Str
  round_display : Str
  seed_track : Str
  all_songs : List Str
  contributors : List (Str × Str)
  col_idx : Nat
deriving DecidableEq

/-- An index entry: spelling variants (sorted), owning cluster references in
ingest order, and the occurrence count. -/
structure IndexEntry where
  variants : List Str
  clusters : List ClusterInfo
  count : Nat
deriving DecidableEq

/-- Python `str.replace(pat, rep)` (all non-overlapping occurrences, left to
right), driven by a character-count fuel that each step decreases. -/
def replApply (pat rep : Str) : Nat → Str → Str
  | _, [] => []
  | 0, s => s
  | fuel + 1, c :: rest =>
    if ((c :: rest).take pat.length = pat ∧ pat ≠ []) then
      rep ++ replApply pat rep fuel ((c :: rest).drop pat.length)
    else c :: replApply pat rep fuel rest

/-- Python `s.replace(pat, rep)`. -/
def pyReplace (s pat rep : Str) : Str := replApply pat rep s.length s

/-- The seed-contributor annotation parser of main.py 486-494: strip the
`Ausgangssong von` prefix when present, else just strip. -/
def parseSeedContributor (txt : Str) : Str :=
  if substrOccurs ("Ausgangssong von").data txt then
    stripWS (pyReplace (pyReplace txt ("Ausgangssong von:").data [])
      ("Ausgangssong von").data [])
  else stripWS txt

/-- Row indices 2.. of the frame (`df.iloc[2:, col]`). -/
def clusterRowIdx (s : Sheet) : List Nat := (List.range s.rows.length).drop 2

/-- The non-NaN, non-blank matching songs of column `col` with their row
numbers (`dropna` plus the strip-nonempty filter; values are kept as
written). -/
def clusterSongRows (s : Sheet) (col : Nat) : List (Nat × Str) :=
  (clusterRowIdx s).filterMap (fun r =>
    match s.cell r col with
    | some v => if stripWS v = [] then none else some (r, v)
    | none => none)

/-- The matching songs of column `col`. -/
def clusterSongs (s : Sheet) (col : Nat) : List Str := (clusterSongRows s col).map Prod.snd

/-- Contributor of row `r` (column 0, stripped; NaN reads as empty). -/
def contribFor (s : Sheet) (r : Nat) : Str := stripWS ((s.cell r 0).getD [])

/-- The per-cluster contributor dict: seeded with the seed track's
contributor, then one insert per matching song (later rows overwrite). -/
def clusterContributors (s : Sheet) (col : Nat) (seed : Str) : List (Str × Str) :=
  (clusterSongRows s col).foldl (fun d p => dinsert p.2 (contribFor s p.1) d)
    [(seed, parseSeedContributor ((s.cell 1 col).getD []))]

/-- `f"{sheet_name}, Woche {week_number}"`. -/
def mkRoundDisplay (sheetName : Str) (col : Nat) : Str :=
  sheetName ++ (", Woche ").data ++ (Nat.repr col).data

/-- The cluster record of column `col` (main.py 502-517). -/
def mkClusterInfo (s : Sheet) (col : Nat) : ClusterInfo :=
  ⟨s.name, mkRoundDisplay s.name col, stripWS ((s.cell 0 col).getD []),
    stripWS ((s.cell 0 col).getD []) :: clusterSongs s col,
    clusterContributors s col (stripWS ((s.cell 0 col).getD [])), col⟩

/-- Add one song occurrence to the in-progress index (defaultdict semantics:
first touch inserts the key at the end; the variant set adds the spelling if
new; the cluster list appends one reference per occurrence). -/
def addOccKey (key song : Str) (ci : ClusterInfo) :
    List (Str × (List Str × List ClusterInfo)) →
      List (Str × (List Str × List ClusterInfo))
  | [] => [(key, ([song], [ci]))]
  | (k, e) :: rest =>
    if k = key then
      (k, ((if song ∈ e.1 then e.1 else e.1 ++ [song]), e.2 ++ [ci])) :: rest
    else (k, e) :: addOccKey key song ci rest

/-- Index one as-written song under its normalized name. -/
def addOcc (idx : List (Str × (List Str × List ClusterInfo))) (song : Str)
    (ci : ClusterInfo) : List (Str × (List Str × List ClusterInfo)) :=
  addOccKey (normalize_song_name song) song ci idx

/-- Columns 1..ncols-1 (`range(1, len(df.columns))`). -/
def sheetCols (s : Sheet) : List Nat := (List.range s.ncols).drop 1

/-- Process one column: NaN seed cells are skipped (`pd.isna` guard); any
string cell, even a blank one, produces a cluster. -/
def processCol (s : Sheet) (idx : List (Str × (List Str × List ClusterInfo)))
    (col : Nat) : List (Str × (List Str × List ClusterInfo)) :=
  match s.cell 0 col with
  | none => idx
  | some _ =>
    let ci := mkClusterInfo s col
    ci.all_songs.foldl (fun d song => addOcc d song ci) idx

/-- Process one worksheet. -/
def processSheet (idx : List (Str × (List Str × List ClusterInfo))) (s : Sheet) :
    List (Str × (List Str × List ClusterInfo)) :=
  (sheetCols s).foldl (processCol s) idx

/-- The defaultdict built by the ingest loops. -/
def rawIndex (ws : List Sheet) : List (Str × (List Str × List ClusterInfo)) :=
  ws.foldl processSheet []

/-- Final per-key conversion: variants become a sorted list and the count is
the cluster-list length (main.py 526-535). -/
def finalizeEntry (p : Str × (List Str × List ClusterInfo)) : Str × IndexEntry :=
  (p.1, ⟨sortStrs p.2.1, p.2.2, p.2.2.length⟩)

/-- Model of `build_song_index` (main.py 462-535). -/
def build_song_index (ws : List Sheet) : List (Str × IndexEntry) :=
  (rawIndex ws).map finalizeEntry

/-! ## `get_top_songs` (main.py 538-566) and `get_song_connections` (569-598) -/

/-- One entry of the top-songs list. -/
structure TopSong where
  name : Str
  normalized : Str
  count : Nat
  variants : List Str
  clusters : List ClusterInfo
deriving DecidableEq

/-- Model of `get_top_songs`: keep entries whose display name (first variant)
contains `" - "`, sort by count descending (stable), truncate to `limit`. -/
def get_top_songs (idx : List (Str × IndexEntry)) (limit : Nat) : List TopSong :=
  (sortStable (fun a b => decide (b.count < a.count))
    (idx.filterMap (fun p =>
      let dn := p.2.variants.headD []
      if substrOccurs (" - ").data dn then
        some ⟨dn, p.1, p.2.count, p.2.variants, p.2.clusters⟩
      else none))).take limit

/-- One connection record returned by `get_song_connections`. -/
structure Connection where
  round_display : Str
  seed_track : Str
  all_songs : List Str
  contributors : List (Str × Str)
deriving DecidableEq

/-- The cluster list of a key, with the `.get(normalized, empty)` default. -/
def entryClusters (idx : List (Str × IndexEntry)) (key : Str) : List ClusterInfo :=
  ((alookup key idx).map IndexEntry.clusters).getD []

/-- Projection of a cluster record to a connection record. -/
def mkConnection (ci : ClusterInfo) : Connection :=
  ⟨ci.round_display, ci.seed_track, ci.all_songs, ci.contributors⟩

/-- Model of `get_song_connections`: normalize the name, look it up, and emit
one connection per cluster reference, in index order. -/
def get_song_connections (song : Str) (idx : List (Str × IndexEntry)) : List Connection :=
  (entryClusters idx (normalize_song_name song)).map mkConnection

/-! ## `search_songs` (main.py 653-761) -/

/-- Step 1 (main.py 680-690): `process.extract` with `token_sort_ratio`,
keeping scores at or above the cutoff, the 100 best, in descending score
order (ties keep input order). -/
def searchCandidates (qn : Str) (names : List Str) (threshold : Nat) :
    List (Str × Score) :=
  (sortStable (fun a b => Score.lt b.2 a.2)
    ((names.map (fun n => (n, tokenSortSim qn n))).filter
      (fun p => scoreAtLeastNat p.2 threshold))).take 100

/-- Step 2 (main.py 692-696): every key containing the normalized query as a
substring, at score 100. -/
def searchExact (qn : Str) (names : List Str) : List (Str × Score) :=
  (names.filter (fun n => substrOccurs qn n)).map (fun n => (n, ⟨100, 1⟩))

/-- Steps 1-3 of `search_songs`: the `all_matches` dict, candidates first,
then the exact matches overriding with 100. -/
def searchAllM (query : Str) (idx : List (Str × IndexEntry)) (threshold : Nat) :
    List (Str × Score) :=
  if query = [] then []
  else
    (searchExact (normalize_song_name query) (idx.map Prod.fst)).foldl
      (fun d p => dinsert p.1 p.2 d)
      ((searchCandidates (normalize_song_name query) (idx.map Prod.fst) threshold).foldl
        (fun d p => dinsert p.1 p.2 d) [])

/-- Accumulated per-cluster data (the `cluster_matches` dict values). -/
structure CMData where
  info : ClusterInfo
  matched : List (Str × Score)
  song_variants : List (Str × List Str)
deriving DecidableEq

/-- `variants[0] if variants else normalized_name`. -/
def displayOf (key : Str) (e : IndexEntry) : Str :=
  match e.variants with
  | [] => key
  | v :: _ => v

/-- Record one hit in the cluster-matches dict (main.py 717-734): create the
entry at first touch, append the (display name, score) pair, note variants. -/
def cmAdd (cm : List ((Str × Nat) × CMData)) (ci : ClusterInfo) (dn : Str) (sc : Score)
    (variants : List Str) : List ((Str × Nat) × CMData) :=
  match alookup (ci.worksheet, ci.col_idx) cm with
  | none => cm ++ [((ci.worksheet, ci.col_idx), ⟨ci, [(dn, sc)], [(dn, variants)]⟩)]
  | some cd =>
    dinsert (ci.worksheet, ci.col_idx)
      ⟨cd.info, cd.matched ++ [(dn, sc)], dinsert dn variants cd.song_variants⟩ cm

/-- Step 4 of `search_songs` (main.py 710-734): group all matches by cluster
identity (worksheet, column). -/
def searchCM (query : Str) (idx : List (Str × IndexEntry)) (threshold : Nat) :
    List ((Str × Nat) × CMData) :=
  (searchAllM query idx threshold).foldl (fun cm p =>
    let e := (alookup p.1 idx).getD ⟨[], [], 0⟩
    (((alookup p.1 idx).getD ⟨[], [], 0⟩).clusters).foldl
      (fun cm2 ci => cmAdd cm2 ci (displayOf p.1 e) p.2 e.variants) cm) []

/-- One search result (the per-cluster dict of main.py 748-758). -/
structure SearchResult where
  worksheet : Str
  round_display : Str
  seed_track : Str
  all_songs : List Str
  matched_songs : List Str
  match_scores : List (Str × Score)
  contributors : List (Str × Str)
  song_variants : List (Str × List Str)
deriving DecidableEq

/-- The seen-set deduplication of main.py 741-746: keep the first occurrence
of each display name. -/
def dedupeFirst : List (Str × Score) → List Str → List (Str × Score)
  | [], _ => []
  | (n, s) :: rest, seen =>
    if n ∈ seen then dedupeFirst rest seen else (n, s) :: dedupeFirst rest (n :: seen)

/-- Step 5 of `search_songs` (main.py 737-758): sort the hits by score
descending (stable), deduplicate by display name, and build the result. -/
def mkResult (cd : CMData) : SearchResult :=
  ⟨cd.info.worksheet, cd.info.round_display, cd.info.seed_track, cd.info.all_songs,
    (dedupeFirst (sortStable (fun a b => Score.lt b.2 a.2) cd.matched) []).map Prod.fst,
    dedupeFirst (sortStable (fun a b => Score.lt b.2 a.2) cd.matched) [],
    cd.info.contributors, cd.song_variants⟩

/-- Model of `search_songs` (main.py 653-761). -/
def search_songs (query : Str) (idx : List (Str × IndexEntry)) (threshold : Nat) :
    List SearchResult :=
  if query = [] then []
  else if searchAllM query idx threshold = [] then []
  else (searchCM query idx threshold).map (fun p => mkResult p.2)

/-! ## Toolkit lemmas: folds, dict operations, stable sorts -/

theorem foldl_preserve_mem {α β : Type} (P : β → Prop) (f : β → α → β) (l : List α)
    (h : ∀ b a, a ∈ l → P b → P (f b a)) (b : β) (hb : P b) : P (l.foldl f b) := by
  induction l generalizing b with
  | nil => exact hb
  | cons a t ih =>
    exact ih (fun b2 a2 ha2 => h b2 a2 (by simp [ha2])) (f b a) (h b a (by simp) hb)

theorem foldl_establish {α β : Type} (P : β → Prop) (f : β → α → β) (l : List α) (a : α)
    (ha : a ∈ l) (hest : ∀ b, P (f b a)) (hmono : ∀ b x, x ∈ l → P b → P (f b x)) (b : β) :
    P (l.foldl f b) := by
  induction l generalizing b with
  | nil => exact absurd ha (by simp)
  | cons c t ih =>
    rcases List.mem_cons.mp ha with rfl | ha2
    · exact foldl_preserve_mem P f t (fun b2 x hx => hmono b2 x (by simp [hx])) (f b a) (hest b)
    · exact ih ha2 (fun b2 x hx => hmono b2 x (by simp [hx])) (f b c)

theorem alookup_dinsert_self {α β : Type} [DecidableEq α] (k : α) (v : β)
    (d : List (α × β)) : alookup k (dinsert k v d) = some v := by
  induction d with
  | nil => simp [dinsert, alookup]
  | cons p rest ih =>
    obtain ⟨k2, v2⟩ := p
    by_cases h : k2 = k
    · simp [dinsert, alookup, h]
    · simp [dinsert, alookup, h, ih]

theorem alookup_dinsert_other {α β : Type} [DecidableEq α] (k k2 : α) (v : β)
    (d : List (α × β)) (h : k2 ≠ k) : alookup k2 (dinsert k v d) = alookup k2 d := by
  induction d with
  | nil => simp [dinsert, alookup, Ne.symm h]
  | cons p rest ih =>
    obtain ⟨k3, v3⟩ := p
    by_cases h3 : k3 = k
    · subst h3
      simp [dinsert, alookup, Ne.symm h]
    · simp [dinsert, alookup, h3, ih]

theorem mem_of_alookup {α β : Type} [DecidableEq α] (k : α) (v : β) (d : List (α × β))
    (h : alookup k d = some v) : (k, v) ∈ d := by
  induction d with
  | nil => simp [alookup] at h
  | cons p rest ih =>
    obtain ⟨k2, v2⟩ := p
    by_cases h2 : k2 = k
    · subst h2
      simp [alookup] at h
      simp [h]
    · simp [alookup, h2] at h
      exact List.mem_cons_of_mem _ (ih h)

theorem alookup_eq_none_iff {α β : Type} [DecidableEq α] (k : α) (d : List (α × β)) :
    alookup k d = none ↔ k ∉ d.map Prod.fst := by
  induction d with
  | nil => simp [alookup]
  | cons p rest ih =>
    obtain ⟨k2, v2⟩ := p
    by_cases h2 : k2 = k
    · subst h2
      simp [alookup]
    · simp [alookup, h2, ih, Ne.symm h2]

theorem dinsert_keys_of_mem {α β : Type} [DecidableEq α] (k : α) (v : β)
    (d : List (α × β)) (h : k ∈ d.map Prod.fst) :
    (dinsert k v d).map Prod.fst = d.map Prod.fst := by
  induction d with
  | nil => simp at h
  | cons p rest ih =>
    obtain ⟨k2, v2⟩ := p
    by_cases h2 : k2 = k
    · simp [dinsert, h2]
    · rw [List.map_cons] at h
      have h3 : k ∈ rest.map Prod.fst := by
        rcases List.mem_cons.mp h with he | hm
        · exact absurd he.symm h2
        · exact hm
      simp [dinsert, h2, ih h3]

theorem dinsert_keys_of_not_mem {α β : Type} [DecidableEq α] (k : α) (v : β)
    (d : List (α × β)) (h : k ∉ d.map Prod.fst) :
    (dinsert k v d).map Prod.fst = d.map Prod.fst ++ [k] := by
  induction d with
  | nil => simp [dinsert]
  | cons p rest ih =>
    obtain ⟨k2, v2⟩ := p
    have h2 : k2 ≠ k := by intro he; exact h (by simp [he])
    simp only [dinsert, if_neg h2, List.map_cons, List.cons_append, List.cons.injEq]
    exact ⟨trivial, ih (by intro hm; exact h (by simp [hm]))⟩

theorem dinsert_keys_nodup {α β : Type} [DecidableEq α] (k : α) (v : β)
    (d : List (α × β)) (h : (d.map Prod.fst).Nodup) :
    ((dinsert k v d).map Prod.fst).Nodup := by
  by_cases hm : k ∈ d.map Prod.fst
  · rw [dinsert_keys_of_mem k v d hm]
    exact h
  · rw [dinsert_keys_of_not_mem k v d hm]
    simp [List.nodup_append, h, hm]

theorem alookup_foldl_dinsert_not_mem {α β : Type} [DecidableEq α]
    (l : List (α × β)) (k : α) : ∀ d : List (α × β), k ∉ l.map Prod.fst →
    alookup k (l.foldl (fun d2 p => dinsert p.1 p.2 d2) d) = alookup k d := by
  induction l with
  | nil => intro d _; rfl
  | cons p rest ih =>
    intro d hk
    have h1 : k ∉ rest.map Prod.fst := by intro hm; exact hk (by simp [hm])
    have h2 : p.1 ≠ k := by intro he; exact hk (by simp [← he])
    rw [List.foldl_cons, ih (dinsert p.1 p.2 d) h1, alookup_dinsert_other p.1 k p.2 d
      (Ne.symm h2)]

theorem alookup_foldl_dinsert_mem {α β : Type} [DecidableEq α]
    (l : List (α × β)) (k : α) (v : β) : ∀ d : List (α × β),
    (l.map Prod.fst).Nodup → (k, v) ∈ l →
    alookup k (l.foldl (fun d2 p => dinsert p.1 p.2 d2) d) = some v := by
  induction l with
  | nil => intro d _ hkv; simp at hkv
  | cons p rest ih =>
    intro d hnd hkv
    rcases List.mem_cons.mp hkv with he | hm
    · subst he
      have h1 : k ∉ rest.map Prod.fst := by
        simp only [List.map_cons, List.nodup_cons] at hnd
        exact hnd.1
      rw [List.foldl_cons, alookup_foldl_dinsert_not_mem rest k _ h1,
        alookup_dinsert_self]
    · rw [List.foldl_cons]
      exact ih (dinsert p.1 p.2 d)
        (by simp only [List.map_cons, List.nodup_cons] at hnd; exact hnd.2) hm

theorem insByGt_perm {α : Type} (gt : α → α → Bool) (x : α) (l : List α) :
    List.Perm (insByGt gt x l) (x :: l) := by
  induction l with
  | nil => rfl
  | cons y ys ih =>
    by_cases h : gt y x = true
    · rw [show insByGt gt x (y :: ys) = y :: insByGt gt x ys from by simp [insByGt, h]]
      exact (ih.cons y).trans (List.Perm.swap x y ys)
    · rw [show insByGt gt x (y :: ys) = x :: y :: ys from by simp [insByGt, h]]

theorem sortStable_perm {α : Type} (gt : α → α → Bool) (l : List α) :
    List.Perm (sortStable gt l) l := by
  induction l with
  | nil => rfl
  | cons x xs ih =>
    exact (insByGt_perm gt x (sortStable gt xs)).trans (ih.cons x)

theorem insAsc_perm (x : Str) (m : List Str) : List.Perm (insAsc x m) (x :: m) := by
  induction m with
  | nil => rfl
  | cons y ys ihy =>
    by_cases h : ltStr x y = true
    · rw [show insAsc x (y :: ys) = x :: y :: ys from by simp [insAsc, h]]
    · rw [show insAsc x (y :: ys) = y :: insAsc x ys from by simp [insAsc, h]]
      exact (ihy.cons y).trans (List.Perm.swap x y ys)

theorem sortStrs_perm (l : List Str) : List.Perm (sortStrs l) l := by
  induction l with
  | nil => rfl
  | cons x xs ih =>
    exact (insAsc_perm x (sortStrs xs)).trans (ih.cons x)

theorem insByGt_pairwise {α : Type} (gt : α → α → Bool) (x : α) (l : List α)
    (hasym : ∀ a b, gt a b = true → gt b a = false)
    (hnt : ∀ a b c, b ∈ x :: l → gt b a = false → gt c b = false → gt c a = false)
    (hl : l.Pairwise (fun a b => gt b a = false)) :
    (insByGt gt x l).Pairwise (fun a b => gt b a = false) := by
  induction l with
  | nil => simp [insByGt]
  | cons y ys ih =>
    by_cases h : gt y x = true
    · rw [show insByGt gt x (y :: ys) = y :: insByGt gt x ys from by simp [insByGt, h]]
      rw [List.pairwise_cons] at hl ⊢
      refine ⟨?_, ih (fun a b c hb => hnt a b c (by
        rcases List.mem_cons.mp hb with rfl | hb2
        · simp
        · simp [List.mem_cons_of_mem _ hb2])) hl.2⟩
      intro z hz
      rcases List.mem_cons.mp ((insByGt_perm gt x ys).mem_iff.mp hz) with rfl | hz2
      · exact hasym y z h
      · exact hl.1 z hz2
    · rw [show insByGt gt x (y :: ys) = x :: y :: ys from by simp [insByGt, h]]
      rw [List.pairwise_cons]
      constructor
      · intro z hz
        rcases List.mem_cons.mp hz with rfl | hz2
        · simpa using h
        · exact hnt x y z (by simp) (by simpa using h) (List.rel_of_pairwise_cons hl hz2)
      · exact List.Pairwise.cons (fun z hz => List.rel_of_pairwise_cons hl hz) (List.Pairwise.sublist
          (List.sublist_cons_self y ys) hl)

theorem sortStable_pairwise {α : Type} (gt : α → α → Bool) (l : List α)
    (hasym : ∀ a b, gt a b = true → gt b a = false)
    (hnt : ∀ a b c, b ∈ l → gt b a = false → gt c b = false → gt c a = false) :
    (sortStable gt l).Pairwise (fun a b => gt b a = false) := by
  induction l with
  | nil => simp [sortStable]
  | cons x xs ih =>
    refine insByGt_pairwise gt x (sortStable gt xs) hasym (fun a b c hb => ?_)
      (ih (fun a b c hb => hnt a b c (List.mem_cons_of_mem _ hb)))
    refine hnt a b c ?_
    rcases List.mem_cons.mp hb with rfl | hb2
    · simp
    · exact List.mem_cons_of_mem _ ((sortStable_perm gt xs).mem_iff.mp hb2)

theorem insAsc_pairwise (x : Str) (l : List Str)
    (hasym : ∀ a b : Str, ltStr a b = true → ltStr b a = false)
    (hnt : ∀ a b c : Str, ltStr b a = false → ltStr c b = false → ltStr c a = false)
    (hl : l.Pairwise (fun a b => ltStr b a = false)) :
    (insAsc x l).Pairwise (fun a b => ltStr b a = false) := by
  induction l with
  | nil => simp [insAsc]
  | cons y ys ih =>
    by_cases h : ltStr x y = true
    · rw [show insAsc x (y :: ys) = x :: y :: ys from by simp [insAsc, h]]
      rw [List.pairwise_cons]
      constructor
      · intro z hz
        rcases List.mem_cons.mp hz with rfl | hz2
        · exact hasym x z h
        · exact hnt x y z (hasym x y h) (List.rel_of_pairwise_cons hl hz2)
      · exact hl
    · rw [show insAsc x (y :: ys) = y :: insAsc x ys from by simp [insAsc, h]]
      rw [List.pairwise_cons] at hl ⊢
      refine ⟨?_, ih hl.2⟩
      intro z hz
      rcases List.mem_cons.mp ((insAsc_perm x ys).mem_iff.mp hz) with rfl | hz2
      · simpa using h
      · exact hl.1 z hz2

theorem ltStr_asymm : ∀ a b : Str, ltStr a b = true → ltStr b a = false := by
  intro a
  induction a with
  | nil =>
    intro b h
    cases b with
    | nil => simp [ltStr] at h
    | cons c cs => simp [ltStr]
  | cons c cs ih =>
    intro b h
    cases b with
    | nil => simp [ltStr] at h
    | cons d ds =>
      simp only [ltStr] at h ⊢
      by_cases h1 : c < d
      · rw [if_neg (by exact lt_asymm h1), if_pos h1]
      · rw [if_neg h1] at h
        by_cases h2 : d < c
        · rw [if_pos h2] at h
          exact absurd h (by simp)
        · rw [if_neg h2] at h
          rw [if_neg h2, if_neg h1]
          exact ih ds h

theorem ltStr_negtrans : ∀ a b c : Str, ltStr b a = false → ltStr c b = false →
    ltStr c a = false := by
  intro a
  induction a with
  | nil =>
    intro b c h1 h2
    cases c with
    | nil => rfl
    | cons e es => rfl
  | cons x xs ih =>
    intro b c h1 h2
    cases b with
    | nil => simp [ltStr] at h1
    | cons d ds =>
      cases c with
      | nil => simp [ltStr] at h2
      | cons e es =>
        simp only [ltStr] at h1 h2 ⊢
        have hndx : ¬ d < x := by
          intro hlt
          rw [if_pos hlt] at h1
          exact absurd h1 (by simp)
        have hned : ¬ e < d := by
          intro hlt
          rw [if_pos hlt] at h2
          exact absurd h2 (by simp)
        rw [if_neg hndx] at h1
        rw [if_neg hned] at h2
        by_cases hxd : x < d
        · by_cases hde : d < e
          · have hxe : x < e := lt_trans hxd hde
            rw [if_neg (lt_asymm hxe), if_pos hxe]
          · have hde2 : d = e := le_antisymm (not_lt.mp hned) (not_lt.mp hde)
            subst hde2
            rw [if_neg (lt_asymm hxd), if_pos hxd]
        · have hdx2 : x = d := le_antisymm (not_lt.mp hndx) (not_lt.mp hxd)
          subst hdx2
          rw [if_neg hxd] at h1
          by_cases hxe : x < e
          · rw [if_neg (lt_asymm hxe), if_pos hxe]
          · rw [if_neg hxe] at h2
            rw [if_neg hned, if_neg hxe]
            exact ih ds es h1 h2

theorem sortStrs_pairwise (l : List Str) :
    (sortStrs l).Pairwise (fun a b => ltStr b a = false) := by
  induction l with
  | nil => simp [sortStrs]
  | cons x xs ih => exact insAsc_pairwise x (sortStrs xs) ltStr_asymm ltStr_negtrans ih

/-! ## Properties of the seen-set deduplication and of score comparison -/

theorem dedupeFirst_sublist : ∀ (l : List (Str × Score)) (seen : List Str),
    (dedupeFirst l seen).Sublist l := by
  intro l
  induction l with
  | nil => intro seen; simp [dedupeFirst]
  | cons p rest ih =>
    intro seen
    obtain ⟨n, s⟩ := p
    by_cases h : n ∈ seen
    · simp only [dedupeFirst, if_pos h]
      exact (ih seen).trans (List.sublist_cons_self (n, s) rest)
    · simp only [dedupeFirst, if_neg h]
      exact (ih (n :: seen)).cons₂ (n, s)

theorem dedupeFirst_not_seen : ∀ (l : List (Str × Score)) (seen : List Str) (n : Str)
    (s : Score), (n, s) ∈ dedupeFirst l seen → n ∉ seen := by
  intro l
  induction l with
  | nil => intro seen n s h; simp [dedupeFirst] at h
  | cons p rest ih =>
    intro seen n s h
    obtain ⟨m, t⟩ := p
    by_cases hm : m ∈ seen
    · rw [dedupeFirst, if_pos hm] at h
      exact ih seen n s h
    · rw [dedupeFirst, if_neg hm] at h
      rcases List.mem_cons.mp h with he | h2
      · injection he with h3 h4
        rw [h3]
        exact hm
      · intro hs
        exact ih (m :: seen) n s h2 (List.mem_cons_of_mem m hs)

theorem dedupeFirst_names_nodup : ∀ (l : List (Str × Score)) (seen : List Str),
    ((dedupeFirst l seen).map Prod.fst).Nodup := by
  intro l
  induction l with
  | nil => intro seen; simp [dedupeFirst]
  | cons p rest ih =>
    intro seen
    obtain ⟨m, t⟩ := p
    by_cases hm : m ∈ seen
    · rw [dedupeFirst, if_pos hm]
      exact ih seen
    · rw [dedupeFirst, if_neg hm]
      rw [List.map_cons, List.nodup_cons]
      refine ⟨?_, ih (m :: seen)⟩
      intro hmem
      obtain ⟨⟨n2, s2⟩, hmem2, he⟩ := List.mem_map.mp hmem
      have h5 := dedupeFirst_not_seen rest (m :: seen) n2 s2 hmem2
      have he2 : n2 = m := he
      exact h5 (by rw [he2]; simp)

theorem alookup_dedupeFirst : ∀ (l : List (Str × Score)) (seen : List Str) (n : Str)
    (v : Score), (n, v) ∈ l → (∀ s2, (n, s2) ∈ l → s2 = v) → n ∉ seen →
    alookup n (dedupeFirst l seen) = some v := by
  intro l
  induction l with
  | nil => intro seen n v hmem _ _; simp at hmem
  | cons p rest ih =>
    intro seen n v hmem hall hseen
    obtain ⟨m, t⟩ := p
    by_cases he : m = n
    · subst he
      rw [dedupeFirst, if_neg hseen]
      have ht : t = v := hall t (by simp)
      subst ht
      simp [alookup]
    · rw [dedupeFirst]
      have hmem2 : (n, v) ∈ rest := by
        rcases List.mem_cons.mp hmem with h2 | h2
        · injection h2 with h3 _
          exact absurd h3.symm he
        · exact h2
      have hall2 : ∀ s2, (n, s2) ∈ rest → s2 = v :=
        fun s2 hs2 => hall s2 (List.mem_cons_of_mem _ hs2)
      by_cases hm : m ∈ seen
      · rw [if_pos hm]
        exact ih seen n v hmem2 hall2 hseen
      · rw [if_neg hm]
        rw [alookup, if_neg he]
        exact ih (m :: seen) n v hmem2 hall2 (by
          intro hs
          rcases List.mem_cons.mp hs with h3 | h3
          · exact he h3.symm
          · exact hseen h3)

theorem mem_dedupeFirst_exists : ∀ (l : List (Str × Score)) (seen : List Str) (n : Str)
    (s : Score), (n, s) ∈ l → n ∉ seen → ∃ s2, (n, s2) ∈ dedupeFirst l seen := by
  intro l
  induction l with
  | nil => intro seen n s hmem _; simp at hmem
  | cons p rest ih =>
    intro seen n s hmem hseen
    obtain ⟨m, t⟩ := p
    by_cases hm : m ∈ seen
    · rw [dedupeFirst, if_pos hm]
      rcases List.mem_cons.mp hmem with h2 | h2
      · injection h2 with h3 _
        rw [← h3] at hm
        exact absurd hm hseen
      · exact ih seen n s h2 hseen
    · rw [dedupeFirst, if_neg hm]
      by_cases he : m = n
      · subst he
        exact ⟨t, by simp⟩
      · rcases List.mem_cons.mp hmem with h2 | h2
        · injection h2 with h3 _
          exact absurd h3.symm he
        · obtain ⟨s2, hs2⟩ := ih (m :: seen) n s h2 (by
            intro hs
            rcases List.mem_cons.mp hs with h3 | h3
            · exact he h3.symm
            · exact hseen h3)
          exact ⟨s2, List.mem_cons_of_mem _ hs2⟩

theorem dedupeFirst_max {R : Str × Score → Str × Score → Prop} :
    ∀ (l : List (Str × Score)) (seen : List Str), l.Pairwise R →
    ∀ (n : Str) (s : Score), (n, s) ∈ dedupeFirst l seen →
    ∀ s2, (n, s2) ∈ l → s2 = s ∨ R (n, s) (n, s2) := by
  intro l
  induction l with
  | nil => intro seen _ n s hmem; simp [dedupeFirst] at hmem
  | cons p rest ih =>
    intro seen hpw n s hmem s2 hmem2
    obtain ⟨m, t⟩ := p
    rw [List.pairwise_cons] at hpw
    by_cases hm : m ∈ seen
    · rw [dedupeFirst, if_pos hm] at hmem
      have hne : n ≠ m := by
        intro he
        exact (dedupeFirst_not_seen rest seen n s hmem) (he ▸ hm)
      rcases List.mem_cons.mp hmem2 with h2 | h2
      · injection h2 with h3 _
        exact absurd h3 hne
      · exact ih seen hpw.2 n s hmem s2 h2
    · rw [dedupeFirst, if_neg hm] at hmem
      rcases List.mem_cons.mp hmem with he | hmem3
      · injection he with h3 h4
        subst h3
        subst h4
        rcases List.mem_cons.mp hmem2 with h2 | h2
        · injection h2 with _ h5
          exact Or.inl h5
        · exact Or.inr (hpw.1 (n, s2) h2)
      · have hne : n ≠ m := by
          intro he
          exact (dedupeFirst_not_seen rest (m :: seen) n s hmem3) (he ▸ (by simp))
        rcases List.mem_cons.mp hmem2 with h2 | h2
        · injection h2 with h3 _
          exact absurd h3 hne
        · exact ih (m :: seen) hpw.2 n s hmem3 s2 h2

theorem score_lt_asymm (a b : Score) (h : Score.lt a b = true) : Score.lt b a = false := by
  simp only [Score.lt, decide_eq_true_eq] at h
  simp only [Score.lt, decide_eq_false_iff_not, not_lt]
  exact le_of_lt h

theorem score_lt_negtrans (a b c : Score) (hb : 0 < b.den)
    (h1 : Score.lt b a = false) (h2 : Score.lt c b = false) : Score.lt c a = false := by
  simp only [Score.lt, decide_eq_false_iff_not, not_lt] at h1 h2 ⊢
  have h3 : a.num * c.den * b.den ≤ c.num * a.den * b.den := by
    calc a.num * c.den * b.den = (a.num * b.den) * c.den := by ring
    _ ≤ (b.num * a.den) * c.den := Nat.mul_le_mul_right _ h1
    _ = (b.num * c.den) * a.den := by ring
    _ ≤ (c.num * b.den) * a.den := Nat.mul_le_mul_right _ h2
    _ = c.num * a.den * b.den := by ring
  exact Nat.le_of_mul_le_mul_right h3 hb

/-! ## Invariants of the index builder -/

theorem addOccKey_keys (key song : Str) (ci : ClusterInfo) :
    ∀ d, (addOccKey key song ci d).map Prod.fst =
      if key ∈ d.map Prod.fst then d.map Prod.fst else d.map Prod.fst ++ [key] := by
  intro d
  induction d with
  | nil => simp [addOccKey]
  | cons p rest ih =>
    obtain ⟨k, e⟩ := p
    by_cases h : k = key
    · subst h
      simp [addOccKey]
    · rw [show addOccKey key song ci ((k, e) :: rest) =
        (k, e) :: addOccKey key song ci rest from by simp [addOccKey, h]]
      by_cases h2 : key ∈ rest.map Prod.fst
      · rw [List.map_cons, ih, if_pos h2, if_pos (by simp [h2])]
        simp
      · rw [List.map_cons, ih, if_neg h2,
          if_neg (by simp [h2]; exact fun he => h he.symm)]
        simp

theorem addOccKey_entprop (key song : Str) (ci : ClusterInfo)
    (hk : normalize_song_name song = key) :
    ∀ d, (∀ p ∈ d, p.2.1 ≠ [] ∧ ∀ v ∈ p.2.1, normalize_song_name v = p.1) →
      ∀ p ∈ addOccKey key song ci d,
        p.2.1 ≠ [] ∧ ∀ v ∈ p.2.1, normalize_song_name v = p.1 := by
  intro d
  induction d with
  | nil =>
    intro _ p hp
    simp only [addOccKey] at hp
    rcases List.mem_singleton.mp hp with rfl
    refine ⟨by simp, ?_⟩
    intro v hv
    rcases List.mem_singleton.mp hv with rfl
    exact hk
  | cons q rest ih =>
    intro hent p hp
    obtain ⟨k, e⟩ := q
    by_cases h3 : k = key
    · subst h3
      rw [show addOccKey k song ci ((k, e) :: rest) =
        (k, ((if song ∈ e.1 then e.1 else e.1 ++ [song]), e.2 ++ [ci])) :: rest from by
          simp [addOccKey]] at hp
      rcases List.mem_cons.mp hp with rfl | hp2
      · have hold := hent (k, e) (by simp)
        by_cases h4 : song ∈ e.1
        · rw [if_pos h4]
          exact ⟨hold.1, hold.2⟩
        · rw [if_neg h4]
          refine ⟨by simp [hold.1], ?_⟩
          intro v hv
          rcases List.mem_append.mp hv with hv1 | hv2
          · exact hold.2 v hv1
          · rcases List.mem_singleton.mp hv2 with rfl
            exact hk
      · exact hent p (List.mem_cons_of_mem _ hp2)
    · rw [show addOccKey key song ci ((k, e) :: rest) =
        (k, e) :: addOccKey key song ci rest from by simp [addOccKey, h3]] at hp
      rcases List.mem_cons.mp hp with rfl | hp2
      · exact hent (k, e) (by simp)
      · exact ih (fun q hq => hent q (List.mem_cons_of_mem _ hq)) p hp2

/-- The raw-index invariant: keys are distinct and every variant of a key
normalizes to that key. -/
def RawInv (d : List (Str × (List Str × List ClusterInfo))) : Prop :=
  (d.map Prod.fst).Nodup ∧
    ∀ p ∈ d, p.2.1 ≠ [] ∧ ∀ v ∈ p.2.1, normalize_song_name v = p.1

theorem addOccKey_rawInv (key song : Str) (ci : ClusterInfo)
    (d : List (Str × (List Str × List ClusterInfo)))
    (hk : normalize_song_name song = key) (h : RawInv d) :
    RawInv (addOccKey key song ci d) := by
  obtain ⟨hnd, hent⟩ := h
  constructor
  · rw [addOccKey_keys]
    by_cases h2 : key ∈ d.map Prod.fst
    · rw [if_pos h2]; exact hnd
    · rw [if_neg h2]; simp [List.nodup_append, hnd, h2]
  · exact addOccKey_entprop key song ci hk d hent

theorem rawIndex_rawInv (ws : List Sheet) : RawInv (rawIndex ws) := by
  unfold rawIndex
  refine foldl_preserve_mem RawInv processSheet ws (fun d s _ hd => ?_) [] ⟨by simp, by simp⟩
  unfold processSheet
  refine foldl_preserve_mem RawInv (processCol s) (sheetCols s) (fun d2 col _ hd2 => ?_) d hd
  unfold processCol
  cases h : s.cell 0 col with
  | none => exact hd2
  | some v =>
    refine foldl_preserve_mem RawInv _ (mkClusterInfo s col).all_songs
      (fun d3 song _ hd3 => ?_) d2 hd2
    exact addOccKey_rawInv _ song _ d3 rfl hd3

theorem alookup_of_mem_nodup {α β : Type} [DecidableEq α] (k : α) (v : β)
    (d : List (α × β)) (hnd : (d.map Prod.fst).Nodup) (h : (k, v) ∈ d) :
    alookup k d = some v := by
  induction d with
  | nil => exact absurd h (by simp)
  | cons p rest ih =>
    obtain ⟨k2, v2⟩ := p
    rcases List.mem_cons.mp h with he | h2
    · obtain ⟨rfl, rfl⟩ := Prod.mk.injEq k v k2 v2 ▸ he
      simp [alookup]
    · have hk : k2 ≠ k := by
        intro hke
        subst hke
        exact (List.nodup_cons.mp hnd).1
          (List.mem_map.mpr ⟨(k2, v), h2, rfl⟩)
      rw [show alookup k ((k2, v2) :: rest) = alookup k rest from by simp [alookup, hk]]
      exact ih (List.nodup_cons.mp hnd).2 h2

theorem addOccKey_prov (Q : ClusterInfo → Prop) (key song : Str) (ci : ClusterInfo)
    (hci : Q ci) :
    ∀ d, (∀ p ∈ d, ∀ c ∈ p.2.2, Q c) →
      ∀ p ∈ addOccKey key song ci d, ∀ c ∈ p.2.2, Q c := by
  intro d
  induction d with
  | nil =>
    intro _ p hp c hc
    simp only [addOccKey] at hp
    rcases List.mem_singleton.mp hp with rfl
    rcases List.mem_singleton.mp hc with rfl
    exact hci
  | cons q rest ih =>
    intro hent p hp c hc
    obtain ⟨k, e⟩ := q
    by_cases h3 : k = key
    · subst h3
      rw [show addOccKey k song ci ((k, e) :: rest) =
        (k, ((if song ∈ e.1 then e.1 else e.1 ++ [song]), e.2 ++ [ci])) :: rest from by
          simp [addOccKey]] at hp
      rcases List.mem_cons.mp hp with rfl | hp2
      · rcases List.mem_append.mp hc with hc1 | hc2
        · exact hent (k, e) (by simp) c hc1
        · rcases List.mem_singleton.mp hc2 with rfl
          exact hci
      · exact hent p (List.mem_cons_of_mem _ hp2) c hc
    · rw [show addOccKey key song ci ((k, e) :: rest) =
        (k, e) :: addOccKey key song ci rest from by simp [addOccKey, h3]] at hp
      rcases List.mem_cons.mp hp with rfl | hp2
      · exact hent (k, e) (by simp) c hc
      · exact ih (fun q hq => hent q (List.mem_cons_of_mem _ hq)) p hp2 c hc

/-- Cluster provenance: every cluster reference in the raw index was built
by `mkClusterInfo` from a sheet of the input whose seed cell is not NaN. -/
def ClProv (ws : List Sheet) (ci : ClusterInfo) : Prop :=
  ∃ s ∈ ws, ∃ col ∈ sheetCols s, s.cell 0 col ≠ none ∧ ci = mkClusterInfo s col

theorem rawIndex_prov (ws : List Sheet) :
    ∀ p ∈ rawIndex ws, ∀ c ∈ p.2.2, ClProv ws c := by
  unfold rawIndex
  refine foldl_preserve_mem (fun d => ∀ p ∈ d, ∀ c ∈ p.2.2, ClProv ws c)
    processSheet ws (fun d s hs hd => ?_) [] (by simp)
  unfold processSheet
  refine foldl_preserve_mem (fun d => ∀ p ∈ d, ∀ c ∈ p.2.2, ClProv ws c)
    (processCol s) (sheetCols s) (fun d2 col hcol hd2 => ?_) d hd
  unfold processCol
  cases h : s.cell 0 col with
  | none => exact hd2
  | some v =>
    refine foldl_preserve_mem (fun d => ∀ p ∈ d, ∀ c ∈ p.2.2, ClProv ws c) _
      (mkClusterInfo s col).all_songs (fun d3 song _ hd3 => ?_) d2 hd2
    exact addOccKey_prov (ClProv ws) _ song _ ⟨s, hs, col, hcol, by simp [h], rfl⟩ d3 hd3

/-- The raw index holds spelling `song` and cluster reference `ci` under
`key`. -/
def HasCl (d : List (Str × (List Str × List ClusterInfo))) (key song : Str)
    (ci : ClusterInfo) : Prop :=
  ∃ p ∈ d, p.1 = key ∧ song ∈ p.2.1 ∧ ci ∈ p.2.2

theorem addOccKey_hasCl_self (key song : Str) (ci : ClusterInfo) :
    ∀ d, HasCl (addOccKey key song ci d) key song ci := by
  intro d
  induction d with
  | nil => exact ⟨(key, ([song], [ci])), by simp [addOccKey], rfl, by simp, by simp⟩
  | cons q rest ih =>
    obtain ⟨k, e⟩ := q
    by_cases h3 : k = key
    · subst h3
      refine ⟨(k, ((if song ∈ e.1 then e.1 else e.1 ++ [song]), e.2 ++ [ci])),
        by simp [addOccKey], rfl, ?_, by simp⟩
      by_cases h4 : song ∈ e.1
      · rw [if_pos h4]; exact h4
      · rw [if_neg h4]; exact List.mem_append.mpr (Or.inr (by simp))
    · obtain ⟨p, hp, h1, h2, h5⟩ := ih
      refine ⟨p, ?_, h1, h2, h5⟩
      rw [show addOccKey key song ci ((k, e) :: rest) =
        (k, e) :: addOccKey key song ci rest from by simp [addOccKey, h3]]
      exact List.mem_cons_of_mem _ hp

theorem addOccKey_hasCl_mono (key song : Str) (ci : ClusterInfo)
    (k2 s2 : Str) (c2 : ClusterInfo) :
    ∀ d, HasCl d k2 s2 c2 → HasCl (addOccKey key song ci d) k2 s2 c2 := by
  intro d
  induction d with
  | nil => intro h; exact absurd h (by simp [HasCl])
  | cons q rest ih =>
    intro h
    obtain ⟨k, e⟩ := q
    obtain ⟨p, hp, h1, h2, h5⟩ := h
    by_cases h3 : k = key
    · subst h3
      rw [show addOccKey k song ci ((k, e) :: rest) =
        (k, ((if song ∈ e.1 then e.1 else e.1 ++ [song]), e.2 ++ [ci])) :: rest from by
          simp [addOccKey]]
      rcases List.mem_cons.mp hp with rfl | hp2
      · refine ⟨(k, ((if song ∈ e.1 then e.1 else e.1 ++ [song]), e.2 ++ [ci])),
          by simp, h1, ?_, List.mem_append.mpr (Or.inl h5)⟩
        by_cases h4 : song ∈ e.1
        · rw [if_pos h4]; exact h2
        · rw [if_neg h4]; exact List.mem_append.mpr (Or.inl h2)
      · exact ⟨p, List.mem_cons_of_mem _ hp2, h1, h2, h5⟩
    · rw [show addOccKey key song ci ((k, e) :: rest) =
        (k, e) :: addOccKey key song ci rest from by simp [addOccKey, h3]]
      rcases List.mem_cons.mp hp with rfl | hp2
      · exact ⟨(k, e), by simp, h1, h2, h5⟩
      · obtain ⟨p2, hp2b, g1, g2, g3⟩ := ih ⟨p, hp2, h1, h2, h5⟩
        exact ⟨p2, List.mem_cons_of_mem _ hp2b, g1, g2, g3⟩

theorem rawIndex_complete (ws : List Sheet) (s : Sheet) (hs : s ∈ ws) (col : Nat)
    (hcol : col ∈ sheetCols s) (v : Str) (hv : s.cell 0 col = some v)
    (song : Str) (hsong : song ∈ (mkClusterInfo s col).all_songs) :
    HasCl (rawIndex ws) (normalize_song_name song) song (mkClusterInfo s col) := by
  unfold rawIndex
  refine foldl_establish
    (fun d => HasCl d (normalize_song_name song) song (mkClusterInfo s col))
    processSheet ws s hs (fun d => ?_) (fun d s2 hs2 hd => ?_) []
  · unfold processSheet
    refine foldl_establish (fun d => HasCl d (normalize_song_name song) song (mkClusterInfo s col))
      (processCol s) (sheetCols s) col hcol (fun d2 => ?_)
      (fun d2 c2 hc2 hd2 => ?_) d
    · have hpc : processCol s d2 col =
          (mkClusterInfo s col).all_songs.foldl
            (fun d3 song2 => addOcc d3 song2 (mkClusterInfo s col)) d2 := by
        unfold processCol
        rw [hv]
      rw [hpc]
      refine foldl_establish (fun d => HasCl d (normalize_song_name song) song (mkClusterInfo s col))
        _ (mkClusterInfo s col).all_songs song hsong
        (fun d3 => addOccKey_hasCl_self _ _ _ d3)
        (fun d3 x hx hd3 => addOccKey_hasCl_mono _ _ _ _ _ _ d3 hd3) d2
    · unfold processCol
      cases h2 : s.cell 0 c2 with
      | none => exact hd2
      | some v2 =>
        refine foldl_preserve_mem (fun d => HasCl d (normalize_song_name song) song (mkClusterInfo s col))
          _ _ (fun d3 x _ hd3 => ?_) d2 hd2
        exact addOccKey_hasCl_mono _ _ _ _ _ _ d3 hd3
  · unfold processSheet
    refine foldl_preserve_mem (fun d => HasCl d (normalize_song_name song) song (mkClusterInfo s col))
      (processCol s2) (sheetCols s2) (fun d2 c2 _ hd2 => ?_) d hd
    unfold processCol
    cases h2 : s2.cell 0 c2 with
    | none => exact hd2
    | some v2 =>
      refine foldl_preserve_mem (fun d => HasCl d (normalize_song_name song) song (mkClusterInfo s col))
        _ _ (fun d3 x _ hd3 => ?_) d2 hd2
      exact addOccKey_hasCl_mono _ _ _ _ _ _ d3 hd3

theorem build_keys (ws : List Sheet) :
    (build_song_index ws).map Prod.fst = (rawIndex ws).map Prod.fst := by
  unfold build_song_index
  rw [List.map_map]
  exact List.map_congr_left (fun p _ => rfl)

theorem alookup_finalize (k : Str) :
    ∀ d : List (Str × (List Str × List ClusterInfo)),
      alookup k (d.map finalizeEntry) =
        (alookup k d).map (fun e => (⟨sortStrs e.1, e.2, e.2.length⟩ : IndexEntry)) := by
  intro d
  induction d with
  | nil => simp [alookup]
  | cons p rest ih =>
    obtain ⟨k2, e⟩ := p
    by_cases h : k2 = k
    · simp [alookup, finalizeEntry, h]
    · simp [alookup, finalizeEntry, h, ih]

/-- The well-formed-index invariant: keys are distinct and every variant
normalizes back to its key. -/
def WFIndex (idx : List (Str × IndexEntry)) : Prop :=
  (idx.map Prod.fst).Nodup ∧
    ∀ p ∈ idx, p.2.variants ≠ [] ∧ ∀ v ∈ p.2.variants, normalize_song_name v = p.1

theorem build_song_index_wf (ws : List Sheet) : WFIndex (build_song_index ws) := by
  obtain ⟨hnd, hent⟩ := rawIndex_rawInv ws
  constructor
  · rw [build_keys]
    exact hnd
  · intro p hp
    unfold build_song_index at hp
    obtain ⟨q, hq, rfl⟩ := List.mem_map.mp hp
    have h := hent q hq
    constructor
    · intro he
      have hperm : List.Perm ([] : List Str) q.2.1 := he ▸ sortStrs_perm q.2.1
      exact h.1 (hperm.symm.eq_nil)
    · intro v hv
      exact h.2 v ((sortStrs_perm q.2.1).mem_iff.mp hv)

/-! ## Concrete fixtures -/

/-- A small worksheet: seed `"A - B"` in column 1 with one matching song
`"a-b"`, both normalizing to `"a - b"`. -/
def sheetA : Sheet :=
  ⟨("S1").data, 2,
    [[none, some (("A - B").data)],
     [some (("John").data), some (("x").data)],
     [some (("Mary").data), some (("a-b").data)]]⟩

example :
    (build_song_index [sheetA]).map Prod.fst = [("a - b").data] := by decide

/-- C9: in every index produced by `build_song_index`, every variant of a
key's variant set normalizes to that key; in particular any two variants of
one key normalize to the same string. -/
theorem claim_C9_variants_normalize_to_key (ws : List Sheet) (p : Str × IndexEntry)
    (hp : p ∈ build_song_index ws) :
    (∀ v ∈ p.2.variants, normalize_song_name v = p.1) ∧
      ∀ v1 ∈ p.2.variants, ∀ v2 ∈ p.2.variants,
        normalize_song_name v1 = normalize_song_name v2 := by
  have h := (build_song_index_wf ws).2 p hp
  exact ⟨h.2, fun v1 h1 v2 h2 => (h.2 v1 h1).trans (h.2 v2 h2).symm⟩

theorem claim_C9_variants_normalize_to_key_witness :
    ((build_song_index [sheetA]).headD (([], ⟨[], [], 0⟩)) ∈ build_song_index [sheetA]) ∧
      ((∀ v ∈ ((build_song_index [sheetA]).headD (([], ⟨[], [], 0⟩))).2.variants,
          normalize_song_name v = ((build_song_index [sheetA]).headD (([], ⟨[], [], 0⟩))).1) ∧
        ∀ v1 ∈ ((build_song_index [sheetA]).headD (([], ⟨[], [], 0⟩))).2.variants,
          ∀ v2 ∈ ((build_song_index [sheetA]).headD (([], ⟨[], [], 0⟩))).2.variants,
            normalize_song_name v1 = normalize_song_name v2) :=
  ⟨by decide, claim_C9_variants_normalize_to_key [sheetA] _ (by decide)⟩

/-! ## The search pipeline: lemmas -/

theorem mem_dinsert {α β : Type} [DecidableEq α] (k : α) (v : β) (d : List (α × β))
    (q : α × β) (h : q ∈ dinsert k v d) : q = (k, v) ∨ q ∈ d := by
  induction d with
  | nil => simpa [dinsert] using h
  | cons p rest ih =>
    obtain ⟨k2, v2⟩ := p
    by_cases h2 : k2 = k
    · subst h2
      rw [show dinsert k2 v ((k2, v2) :: rest) = (k2, v) :: rest from by simp [dinsert]] at h
      rcases List.mem_cons.mp h with rfl | h3
      · exact Or.inl rfl
      · exact Or.inr (List.mem_cons_of_mem _ h3)
    · rw [show dinsert k v ((k2, v2) :: rest) = (k2, v2) :: dinsert k v rest from by
        simp [dinsert, h2]] at h
      rcases List.mem_cons.mp h with rfl | h3
      · exact Or.inr (by simp)
      · rcases ih h3 with h4 | h4
        · exact Or.inl h4
        · exact Or.inr (List.mem_cons_of_mem _ h4)

theorem mem_foldl_dinsert {α β : Type} [DecidableEq α] (l : List (α × β)) :
    ∀ (d : List (α × β)) (q : α × β),
      q ∈ l.foldl (fun d2 p => dinsert p.1 p.2 d2) d → q ∈ d ∨ q ∈ l := by
  induction l with
  | nil => intro d q h; exact Or.inl h
  | cons p t ih =>
    intro d q h
    rcases ih (dinsert p.1 p.2 d) q h with h2 | h2
    · rcases mem_dinsert p.1 p.2 d q h2 with h3 | h3
      · exact Or.inr (by simp [h3])
      · exact Or.inl h3
    · exact Or.inr (List.mem_cons_of_mem _ h2)

theorem alookup_isSome_of_mem_keys {α β : Type} [DecidableEq α] (k : α)
    (d : List (α × β)) (h : k ∈ d.map Prod.fst) : ∃ v, alookup k d = some v := by
  induction d with
  | nil => exact absurd h (by simp)
  | cons p rest ih =>
    obtain ⟨k2, v2⟩ := p
    by_cases h2 : k2 = k
    · exact ⟨v2, by simp [alookup, h2]⟩
    · rw [List.map_cons] at h
      rcases List.mem_cons.mp h with h3 | h3
      · exact absurd h3.symm h2
      · obtain ⟨v, hv⟩ := ih h3
        exact ⟨v, by simp [alookup, h2, hv]⟩

theorem searchAllM_cases (query : Str) (idx : List (Str × IndexEntry)) (t : Nat)
    (kv : Str × Score) (h : kv ∈ searchAllM query idx t) :
    kv ∈ searchExact (normalize_song_name query) (idx.map Prod.fst) ∨
      kv ∈ searchCandidates (normalize_song_name query) (idx.map Prod.fst) t := by
  unfold searchAllM at h
  by_cases hq : query = []
  · rw [if_pos hq] at h
    exact absurd h (by simp)
  · rw [if_neg hq] at h
    rcases mem_foldl_dinsert _ _ _ h with h2 | h2
    · rcases mem_foldl_dinsert _ _ _ h2 with h3 | h3
      · exact absurd h3 (by simp)
      · exact Or.inr h3
    · exact Or.inl h2

theorem mem_searchExact (qn : Str) (names : List Str) (kv : Str × Score)
    (h : kv ∈ searchExact qn names) :
    kv.1 ∈ names ∧ substrOccurs qn kv.1 = true ∧ kv.2 = ⟨100, 1⟩ := by
  unfold searchExact at h
  obtain ⟨n, hn, rfl⟩ := List.mem_map.mp h
  exact ⟨List.mem_of_mem_filter hn, by simpa using List.of_mem_filter hn, rfl⟩

theorem mem_searchCandidates (qn : Str) (names : List Str) (t : Nat) (kv : Str × Score)
    (h : kv ∈ searchCandidates qn names t) :
    kv.1 ∈ names ∧ kv.2 = tokenSortSim qn kv.1 ∧ scoreAtLeastNat kv.2 t = true := by
  unfold searchCandidates at h
  have h2 : kv ∈ sortStable (fun a b : Str × Score => Score.lt b.2 a.2)
      ((names.map (fun n => (n, tokenSortSim qn n))).filter
        (fun p => scoreAtLeastNat p.2 t)) := List.mem_of_mem_take h
  have h3 := (sortStable_perm _ _).mem_iff.mp h2
  have h4 := List.mem_of_mem_filter h3
  have h5 := List.of_mem_filter h3
  obtain ⟨n, hn, rfl⟩ := List.mem_map.mp h4
  exact ⟨hn, rfl, h5⟩

theorem searchAllM_keys_sub (query : Str) (idx : List (Str × IndexEntry)) (t : Nat)
    (kv : Str × Score) (h : kv ∈ searchAllM query idx t) : kv.1 ∈ idx.map Prod.fst := by
  rcases searchAllM_cases query idx t kv h with h2 | h2
  · exact (mem_searchExact _ _ _ h2).1
  · exact (mem_searchCandidates _ _ _ _ h2).1

/-- Invariant of the `cluster_matches` dict: distinct cluster keys, keys
mirror the stored cluster identity, every stored cluster comes from the
index, and every hit pair comes from an `all_matches` entry. -/
def CMOk (idx : List (Str × IndexEntry)) (am : List (Str × Score))
    (cm : List ((Str × Nat) × CMData)) : Prop :=
  (cm.map Prod.fst).Nodup ∧
    ∀ q ∈ cm, q.1 = (q.2.info.worksheet, q.2.info.col_idx) ∧
      (∃ p ∈ idx, q.2.info ∈ p.2.clusters) ∧
      ∀ x ∈ q.2.matched, ∃ kv ∈ am, ∃ e, alookup kv.1 idx = some e ∧
        x = (displayOf kv.1 e, kv.2)

theorem cmAdd_cmok (idx : List (Str × IndexEntry)) (am : List (Str × Score))
    (cm : List ((Str × Nat) × CMData)) (ci : ClusterInfo) (dn : Str) (sc : Score)
    (vars : List Str) (hci : ∃ p ∈ idx, ci ∈ p.2.clusters)
    (hx : ∃ kv ∈ am, ∃ e, alookup kv.1 idx = some e ∧
      ((dn, sc) : Str × Score) = (displayOf kv.1 e, kv.2))
    (h : CMOk idx am cm) : CMOk idx am (cmAdd cm ci dn sc vars) := by
  obtain ⟨hnd, hent⟩ := h
  unfold cmAdd
  cases halk : alookup (ci.worksheet, ci.col_idx) cm with
  | none =>
    constructor
    · rw [List.map_append]
      refine List.Nodup.append hnd (by simp) ?_
      intro a ha hb
      rcases List.mem_singleton.mp hb with rfl
      exact (alookup_eq_none_iff _ _).mp halk ha
    · intro q hq
      rcases List.mem_append.mp hq with h2 | h2
      · exact hent q h2
      · rcases List.mem_singleton.mp h2 with rfl
        refine ⟨rfl, hci, ?_⟩
        intro x hxm
        rcases List.mem_singleton.mp hxm with rfl
        exact hx
  | some cd =>
    have hmem := mem_of_alookup _ _ _ halk
    have hkeys : ((ci.worksheet, ci.col_idx) : Str × Nat) ∈ cm.map Prod.fst :=
      List.mem_map.mpr ⟨_, hmem, rfl⟩
    have hold := hent _ hmem
    constructor
    · rw [dinsert_keys_of_mem _ _ _ hkeys]
      exact hnd
    · intro q hq
      rcases mem_dinsert _ _ _ _ hq with rfl | h2
      · refine ⟨hold.1, hold.2.1, ?_⟩
        intro x hxm
        rcases List.mem_append.mp hxm with h3 | h3
        · exact hold.2.2 x h3
        · rcases List.mem_singleton.mp h3 with rfl
          exact hx
      · exact hent q h2

theorem searchCM_cmok (query : Str) (idx : List (Str × IndexEntry)) (t : Nat) :
    CMOk idx (searchAllM query idx t) (searchCM query idx t) := by
  unfold searchCM
  refine foldl_preserve_mem (CMOk idx (searchAllM query idx t)) _ _
    (fun cm kv hkv hcm => ?_) [] ⟨by simp, fun q hq => absurd hq (List.not_mem_nil q)⟩
  obtain ⟨e, he⟩ := alookup_isSome_of_mem_keys kv.1 idx
    (searchAllM_keys_sub query idx t kv hkv)
  show CMOk idx (searchAllM query idx t)
    ((((alookup kv.1 idx).getD ⟨[], [], 0⟩).clusters).foldl
      (fun cm2 ci => cmAdd cm2 ci (displayOf kv.1 ((alookup kv.1 idx).getD ⟨[], [], 0⟩))
        kv.2 ((alookup kv.1 idx).getD ⟨[], [], 0⟩).variants) cm)
  rw [he]
  refine foldl_preserve_mem (CMOk idx (searchAllM query idx t)) _ e.clusters
    (fun cm2 ci hcimem hcm2 => ?_) cm hcm
  exact cmAdd_cmok idx _ cm2 ci _ _ _ ⟨(kv.1, e), mem_of_alookup _ _ _ he, hcimem⟩
    ⟨kv, hkv, e, he, rfl⟩ hcm2

/-- A worksheet whose column-1 seed cell is the blank string `" "`: the seed
track strips to empty, yet the cell is not NaN. -/
def sheetWS : Sheet :=
  ⟨("S2").data, 2,
    [[none, some ((" ").data)],
     [some (("John").data), none],
     [some (("Mary").data), some (("X - Y").data)]]⟩

/-- A worksheet whose column-2 seed cell is NaN while a matching song sits
below it; column 1 is a normal cluster. -/
def sheetNaN : Sheet :=
  ⟨("S3").data, 3,
    [[none, some (("A - B").data), none],
     [some (("J").data), some (("x").data), none],
     [some (("M").data), some (("a-b").data), some (("C - D").data)]]⟩

/-- Counterexample to C2 as stated: a cluster whose seed track is the blank
string `" "` (empty after stripping, but not NaN) is indexed, and its
matching song `"X - Y"` is reachable through `search_songs`. -/
theorem claim_C2_counterexample_blank_seed_indexed :
    stripWS ((sheetWS.cell 0 1).getD []) = [] ∧ sheetWS.cell 0 1 ≠ none ∧
      (search_songs (("X - Y").data) (build_song_index [sheetWS]) 70).map
        SearchResult.worksheet = [("S2").data] := by decide

/-- C2 (corrected): only clusters whose seed cell is missing (NaN) are
skipped. For such a cluster no index entry of `build_song_index` holds a
cluster reference with its identity, no `searchCM` group is keyed by it for
any query and threshold, and no `get_top_songs` entry references it. (As
stated the claim is wrong: a blank-string seed cell is not skipped, see the
counterexample.) -/
theorem claim_C2_nan_seed_cluster_absent (ws : List Sheet)
    (hnames : (ws.map Sheet.name).Nodup) (s : Sheet) (hs : s ∈ ws) (col : Nat)
    (hcol : s.cell 0 col = none) :
    (∀ p ∈ build_song_index ws, ∀ ci ∈ p.2.clusters,
        ¬(ci.worksheet = s.name ∧ ci.col_idx = col)) ∧
      (∀ query t, ∀ cd ∈ searchCM query (build_song_index ws) t,
        cd.1 ≠ ((s.name, col) : Str × Nat)) ∧
      ∀ limit : Nat, ∀ ts ∈ get_top_songs (build_song_index ws) limit,
        ∀ ci ∈ ts.clusters, ¬(ci.worksheet = s.name ∧ ci.col_idx = col) := by
  have core : ∀ p ∈ build_song_index ws, ∀ ci ∈ p.2.clusters,
      ¬(ci.worksheet = s.name ∧ ci.col_idx = col) := by
    intro p hp ci hci hcontra
    obtain ⟨qp, hqp, rfl⟩ := List.mem_map.mp hp
    obtain ⟨s2, hs2, col2, hcol2, hne, rfl⟩ := rawIndex_prov ws qp hqp ci hci
    have hw : s2.name = s.name := hcontra.1
    have hc2 : col2 = col := hcontra.2
    have hss : s2 = s := List.inj_on_of_nodup_map hnames hs2 hs hw
    subst hss
    subst hc2
    exact hne hcol
  refine ⟨core, ?_, ?_⟩
  · intro query t cd hcd heq
    obtain ⟨h1, ⟨p, hp, hpi⟩, _⟩ := (searchCM_cmok query (build_song_index ws) t).2 cd hcd
    have h2 : ((cd.2.info.worksheet, cd.2.info.col_idx) : Str × Nat) = (s.name, col) :=
      h1 ▸ heq
    rw [Prod.mk.injEq] at h2
    exact core p hp cd.2.info hpi h2
  · intro limit ts hts ci hci hcontra
    unfold get_top_songs at hts
    have h2 := List.mem_of_mem_take hts
    have h3 := (sortStable_perm _ _).mem_iff.mp h2
    obtain ⟨p, hp, hfp⟩ := List.mem_filterMap.mp h3
    have hfp2 : (if substrOccurs ((" - ").data) (p.2.variants.headD []) then
        some (⟨p.2.variants.headD [], p.1, p.2.count, p.2.variants, p.2.clusters⟩ : TopSong)
      else none) = some ts := hfp
    by_cases hcnd : substrOccurs ((" - ").data) (p.2.variants.headD []) = true
    · rw [if_pos hcnd] at hfp2
      have hts2 : ts = ⟨p.2.variants.headD [], p.1, p.2.count, p.2.variants, p.2.clusters⟩ :=
        (Option.some.inj hfp2).symm
      have hcl : ts.clusters = p.2.clusters := by rw [hts2]
      exact core p hp ci (hcl ▸ hci) hcontra
    · rw [if_neg hcnd] at hfp2
      exact absurd hfp2 (by simp)

theorem claim_C2_nan_seed_cluster_absent_witness :
    ((([sheetNaN].map Sheet.name).Nodup ∧ sheetNaN ∈ [sheetNaN] ∧
        sheetNaN.cell 0 2 = none) ∧
      (∀ p ∈ build_song_index [sheetNaN], ∀ ci ∈ p.2.clusters,
          ¬(ci.worksheet = sheetNaN.name ∧ ci.col_idx = 2)) ∧
        (∀ query t, ∀ cd ∈ searchCM query (build_song_index [sheetNaN]) t,
          cd.1 ≠ ((sheetNaN.name, 2) : Str × Nat)) ∧
        ∀ limit : Nat, ∀ ts ∈ get_top_songs (build_song_index [sheetNaN]) limit,
          ∀ ci ∈ ts.clusters, ¬(ci.worksheet = sheetNaN.name ∧ ci.col_idx = 2)) :=
  ⟨⟨by decide, by decide, by decide⟩,
    claim_C2_nan_seed_cluster_absent [sheetNaN] (by decide) sheetNaN (by decide) 2
      (by decide)⟩

theorem addOccKey_provK (Q : Str → ClusterInfo → Prop) (key song : Str)
    (ci : ClusterInfo) (hci : Q key ci) :
    ∀ d, (∀ p ∈ d, ∀ c ∈ p.2.2, Q p.1 c) →
      ∀ p ∈ addOccKey key song ci d, ∀ c ∈ p.2.2, Q p.1 c := by
  intro d
  induction d with
  | nil =>
    intro _ p hp c hc
    simp only [addOccKey] at hp
    rcases List.mem_singleton.mp hp with rfl
    rcases List.mem_singleton.mp hc with rfl
    exact hci
  | cons q rest ih =>
    intro hent p hp c hc
    obtain ⟨k, e⟩ := q
    by_cases h3 : k = key
    · subst h3
      rw [show addOccKey k song ci ((k, e) :: rest) =
        (k, ((if song ∈ e.1 then e.1 else e.1 ++ [song]), e.2 ++ [ci])) :: rest from by
          simp [addOccKey]] at hp
      rcases List.mem_cons.mp hp with rfl | hp2
      · rcases List.mem_append.mp hc with hc1 | hc2
        · exact hent (k, e) (by simp) c hc1
        · rcases List.mem_singleton.mp hc2 with rfl
          exact hci
      · exact hent p (List.mem_cons_of_mem _ hp2) c hc
    · rw [show addOccKey key song ci ((k, e) :: rest) =
        (k, e) :: addOccKey key song ci rest from by simp [addOccKey, h3]] at hp
      rcases List.mem_cons.mp hp with rfl | hp2
      · exact hent (k, e) (by simp) c hc
      · exact ih (fun q hq => hent q (List.mem_cons_of_mem _ hq)) p hp2 c hc

theorem rawIndex_provK (ws : List Sheet) :
    ∀ p ∈ rawIndex ws, ∀ c ∈ p.2.2,
      ClProv ws c ∧ ∃ w ∈ c.all_songs, normalize_song_name w = p.1 := by
  unfold rawIndex
  refine foldl_preserve_mem
    (fun d => ∀ p ∈ d, ∀ c ∈ p.2.2,
      ClProv ws c ∧ ∃ w ∈ c.all_songs, normalize_song_name w = p.1)
    processSheet ws (fun d s hs hd => ?_) [] (by simp)
  unfold processSheet
  refine foldl_preserve_mem
    (fun d => ∀ p ∈ d, ∀ c ∈ p.2.2,
      ClProv ws c ∧ ∃ w ∈ c.all_songs, normalize_song_name w = p.1)
    (processCol s) (sheetCols s) (fun d2 col hcol hd2 => ?_) d hd
  unfold processCol
  cases h : s.cell 0 col with
  | none => exact hd2
  | some v =>
    refine foldl_preserve_mem
      (fun d => ∀ p ∈ d, ∀ c ∈ p.2.2,
        ClProv ws c ∧ ∃ w ∈ c.all_songs, normalize_song_name w = p.1)
      _ (mkClusterInfo s col).all_songs (fun d3 song hsm hd3 => ?_) d2 hd2
    exact addOccKey_provK
      (fun key c => ClProv ws c ∧ ∃ w ∈ c.all_songs, normalize_song_name w = key)
      _ song _ ⟨⟨s, hs, col, hcol, by simp [h], rfl⟩, song, hsm, rfl⟩ d3 hd3

theorem build_lookup_of_hasCl (ws : List Sheet) (key song : Str) (ci : ClusterInfo)
    (h : HasCl (rawIndex ws) key song ci) :
    ∃ e : IndexEntry, alookup key (build_song_index ws) = some e ∧
      song ∈ e.variants ∧ ci ∈ e.clusters := by
  obtain ⟨p, hp, h1, h2, h5⟩ := h
  have hnd := (rawIndex_rawInv ws).1
  have halk : alookup p.1 (rawIndex ws) = some p.2 :=
    alookup_of_mem_nodup p.1 p.2 _ hnd (by simpa using hp)
  refine ⟨⟨sortStrs p.2.1, p.2.2, p.2.2.length⟩, ?_, ?_, h5⟩
  · rw [← h1]
    unfold build_song_index
    rw [alookup_finalize, halk]
    rfl
  · exact (sortStrs_perm p.2.1).mem_iff.mpr h2

/-- A worksheet whose column-1 cluster lists the matching song `"C - D"`
twice (rows 2 and 3). -/
def sheetDup : Sheet :=
  ⟨("S4").data, 2,
    [[none, some (("A - B").data)],
     [some (("J").data), none],
     [some (("M").data), some (("C - D").data)],
     [some (("K").data), some (("C - D").data)]]⟩

/-- Counterexample to C5 as stated: a song listed twice in one cluster gives
`get_song_connections` two connection records for that single cluster, not
one. -/
theorem claim_C5_counterexample_duplicate_cluster :
    (get_song_connections (("C - D").data) (build_song_index [sheetDup])).map
        Connection.round_display =
      [("S4, Woche 1").data, ("S4, Woche 1").data] := by decide

/-- C5 (corrected): `get_song_connections` emits one connection per cluster
reference of the normalized identity's index entry — not one per distinct
cluster. Every cluster occurrence of the song yields its connection in the
result, and conversely every returned connection is the image under
`mkConnection` of a provenanced cluster that contains a song with the same
normalized identity; but a cluster in which the identity occurs twice
appears twice (see the counterexample). -/
theorem claim_C5_connections_per_cluster_reference (ws : List Sheet) (song : Str)
    (s : Sheet) (hs : s ∈ ws) (col : Nat) (hcol : col ∈ sheetCols s) (v : Str)
    (hv : s.cell 0 col = some v) (hsong : song ∈ (mkClusterInfo s col).all_songs) :
    mkConnection (mkClusterInfo s col) ∈
        get_song_connections song (build_song_index ws) ∧
      ∀ c ∈ get_song_connections song (build_song_index ws),
        ∃ ci, ClProv ws ci ∧ c = mkConnection ci ∧
          ∃ w ∈ ci.all_songs, normalize_song_name w = normalize_song_name song := by
  constructor
  · obtain ⟨e, he, hv2, hcl⟩ := build_lookup_of_hasCl ws (normalize_song_name song) song
      (mkClusterInfo s col) (rawIndex_complete ws s hs col hcol v hv song hsong)
    unfold get_song_connections entryClusters
    rw [he]
    exact List.mem_map.mpr ⟨mkClusterInfo s col, hcl, rfl⟩
  · intro c hc
    unfold get_song_connections entryClusters at hc
    cases halk : alookup (normalize_song_name song) (build_song_index ws) with
    | none => rw [halk] at hc; exact absurd hc (by simp)
    | some e =>
      rw [halk] at hc
      obtain ⟨ci, hci, rfl⟩ := List.mem_map.mp hc
      have hmem := mem_of_alookup _ _ _ halk
      unfold build_song_index at hmem
      obtain ⟨q, hq, heq⟩ := List.mem_map.mp hmem
      have hcle : e.clusters = q.2.2 := by
        have : (finalizeEntry q).2.clusters = q.2.2 := rfl
        rw [heq] at this
        exact this
      have hkey : q.1 = normalize_song_name song := by
        have : (finalizeEntry q).1 = q.1 := rfl
        rw [heq] at this
        exact this.symm
      obtain ⟨hprov, w, hw, hwn⟩ := rawIndex_provK ws q hq ci (hcle ▸ hci)
      exact ⟨ci, hprov, rfl, w, hw, by rw [hwn, hkey]⟩

theorem claim_C5_connections_per_cluster_reference_witness :
    ((sheetA ∈ [sheetA] ∧ 1 ∈ sheetCols sheetA ∧
        sheetA.cell 0 1 = some (("A - B").data) ∧
        (("a-b").data) ∈ (mkClusterInfo sheetA 1).all_songs) ∧
      (mkConnection (mkClusterInfo sheetA 1) ∈
          get_song_connections (("a-b").data) (build_song_index [sheetA]) ∧
        ∀ c ∈ get_song_connections (("a-b").data) (build_song_index [sheetA]),
          ∃ ci, ClProv [sheetA] ci ∧ c = mkConnection ci ∧
            ∃ w ∈ ci.all_songs,
              normalize_song_name w = normalize_song_name (("a-b").data))) :=
  ⟨⟨by decide, by decide, by decide, by decide⟩,
    claim_C5_connections_per_cluster_reference [sheetA] (("a-b").data) sheetA
      (by decide) 1 (by decide) (("A - B").data) (by decide) (by decide)⟩

/-- C8: over any built index, `get_top_songs` keeps only entries whose
display name (the first variant in sort order) contains `" - "`, sorts by
occurrence count descending, truncates to `limit`, and each entry's count
equals the length of its cluster reference list. -/
theorem claim_C8_top_songs_shape (ws : List Sheet) (limit : Nat) :
    (get_top_songs (build_song_index ws) limit).length ≤ limit ∧
      (get_top_songs (build_song_index ws) limit).Pairwise
        (fun a b => b.count ≤ a.count) ∧
      ∀ ts ∈ get_top_songs (build_song_index ws) limit,
        substrOccurs ((" - ").data) ts.name = true ∧
        ts.name = ts.variants.headD [] ∧
        ts.variants.Pairwise (fun a b => ltStr b a = false) ∧
        ts.count = ts.clusters.length ∧
        ∃ p ∈ build_song_index ws,
          ts = ⟨p.2.variants.headD [], p.1, p.2.count, p.2.variants, p.2.clusters⟩ := by
  refine ⟨?_, ?_, ?_⟩
  · unfold get_top_songs
    exact List.length_take_le _ _
  · unfold get_top_songs
    refine List.Pairwise.imp ?_ (List.Pairwise.sublist (List.take_sublist _ _)
      (sortStable_pairwise _ _ (fun a b h => ?_) (fun a b c _ h1 h2 => ?_)))
    · intro a b hab
      exact Nat.le_of_not_lt (by simpa using hab)
    · exact decide_eq_false (by have h2 := of_decide_eq_true h; omega)
    · exact decide_eq_false (by
        have g1 := of_decide_eq_false h1
        have g2 := of_decide_eq_false h2
        omega)
  · intro ts hts
    unfold get_top_songs at hts
    have h2 := List.mem_of_mem_take hts
    have h3 := (sortStable_perm _ _).mem_iff.mp h2
    obtain ⟨p, hp, hfp⟩ := List.mem_filterMap.mp h3
    have hfp2 : (if substrOccurs ((" - ").data) (p.2.variants.headD []) then
        some (⟨p.2.variants.headD [], p.1, p.2.count, p.2.variants, p.2.clusters⟩ : TopSong)
      else none) = some ts := hfp
    by_cases hcnd : substrOccurs ((" - ").data) (p.2.variants.headD []) = true
    · rw [if_pos hcnd] at hfp2
      have hts2 := (Option.some.inj hfp2).symm
      subst hts2
      unfold build_song_index at hp
      obtain ⟨q, hq, heq⟩ := List.mem_map.mp hp
      refine ⟨hcnd, rfl, ?_, ?_, p, ?_, rfl⟩
      · show p.2.variants.Pairwise (fun a b => ltStr b a = false)
        rw [← heq]
        exact sortStrs_pairwise q.2.1
      · show p.2.count = p.2.clusters.length
        rw [← heq]
        rfl
      · unfold build_song_index
        exact hp
    · rw [if_neg hcnd] at hfp2
      exact absurd hfp2 (by simp)

theorem alookup_append_of_none {α β : Type} [DecidableEq α] (k : α)
    (l1 l2 : List (α × β)) (h : alookup k l1 = none) :
    alookup k (l1 ++ l2) = alookup k l2 := by
  induction l1 with
  | nil => rfl
  | cons p rest ih =>
    obtain ⟨k2, v2⟩ := p
    by_cases h2 : k2 = k
    · rw [show alookup k ((k2, v2) :: rest) = some v2 from by simp [alookup, h2]] at h
      exact absurd h (by simp)
    · rw [show alookup k ((k2, v2) :: rest) = alookup k rest from by simp [alookup, h2]] at h
      rw [List.cons_append,
        show alookup k ((k2, v2) :: (rest ++ l2)) = alookup k (rest ++ l2) from by
          simp [alookup, h2]]
      exact ih h

theorem alookup_append_of_some {α β : Type} [DecidableEq α] (k : α) (v : β)
    (l1 l2 : List (α × β)) (h : alookup k l1 = some v) :
    alookup k (l1 ++ l2) = some v := by
  induction l1 with
  | nil => exact absurd h (by simp [alookup])
  | cons p rest ih =>
    obtain ⟨k2, v2⟩ := p
    by_cases h2 : k2 = k
    · rw [show alookup k ((k2, v2) :: rest) = some v2 from by simp [alookup, h2]] at h
      rw [List.cons_append,
        show alookup k ((k2, v2) :: (rest ++ l2)) = some v2 from by simp [alookup, h2]]
      exact h
    · rw [show alookup k ((k2, v2) :: rest) = alookup k rest from by simp [alookup, h2]] at h
      rw [List.cons_append,
        show alookup k ((k2, v2) :: (rest ++ l2)) = alookup k (rest ++ l2) from by
          simp [alookup, h2]]
      exact ih h

/-- The cluster-matches dict holds hit `x` under cluster key `key`. -/
def CMHas (cm : List ((Str × Nat) × CMData)) (key : Str × Nat) (x : Str × Score) : Prop :=
  ∃ cd, alookup key cm = some cd ∧ x ∈ cd.matched

theorem cmAdd_self (cm : List ((Str × Nat) × CMData)) (ci : ClusterInfo) (dn : Str)
    (sc : Score) (vars : List Str) :
    CMHas (cmAdd cm ci dn sc vars) (ci.worksheet, ci.col_idx) (dn, sc) := by
  unfold cmAdd
  cases halk : alookup ((ci.worksheet, ci.col_idx) : Str × Nat) cm with
  | none =>
    refine ⟨⟨ci, [(dn, sc)], [(dn, vars)]⟩, ?_, by simp⟩
    rw [alookup_append_of_none _ _ _ halk]
    simp [alookup]
  | some cd =>
    exact ⟨⟨cd.info, cd.matched ++ [(dn, sc)], dinsert dn vars cd.song_variants⟩,
      alookup_dinsert_self _ _ _, by simp⟩

theorem cmAdd_mono (cm : List ((Str × Nat) × CMData)) (ci : ClusterInfo) (dn : Str)
    (sc : Score) (vars : List Str) (key : Str × Nat) (x : Str × Score)
    (h : CMHas cm key x) : CMHas (cmAdd cm ci dn sc vars) key x := by
  obtain ⟨cd, hcd, hx⟩ := h
  unfold cmAdd
  cases halk : alookup ((ci.worksheet, ci.col_idx) : Str × Nat) cm with
  | none => exact ⟨cd, alookup_append_of_some _ _ _ _ hcd, hx⟩
  | some cd2 =>
    by_cases hk : key = ((ci.worksheet, ci.col_idx) : Str × Nat)
    · subst hk
      have hcc : cd2 = cd := Option.some.inj (halk ▸ hcd)
      subst hcc
      exact ⟨⟨cd2.info, cd2.matched ++ [(dn, sc)], dinsert dn vars cd2.song_variants⟩,
        alookup_dinsert_self _ _ _, List.mem_append.mpr (Or.inl hx)⟩
    · exact ⟨cd, by rw [alookup_dinsert_other _ _ _ _ hk]; exact hcd, hx⟩

theorem searchCM_has (query : Str) (idx : List (Str × IndexEntry)) (t : Nat)
    (kv : Str × Score) (hkv : kv ∈ searchAllM query idx t) (e : IndexEntry)
    (he : alookup kv.1 idx = some e) (ci : ClusterInfo) (hci : ci ∈ e.clusters) :
    CMHas (searchCM query idx t) (ci.worksheet, ci.col_idx) (displayOf kv.1 e, kv.2) := by
  unfold searchCM
  refine foldl_establish
    (fun cm => CMHas cm (ci.worksheet, ci.col_idx) (displayOf kv.1 e, kv.2))
    _ _ kv hkv (fun cm => ?_) (fun cm p hp hcm => ?_) []
  · show CMHas
      ((((alookup kv.1 idx).getD ⟨[], [], 0⟩).clusters).foldl
        (fun cm2 ci2 => cmAdd cm2 ci2 (displayOf kv.1 ((alookup kv.1 idx).getD ⟨[], [], 0⟩))
          kv.2 ((alookup kv.1 idx).getD ⟨[], [], 0⟩).variants) cm)
      (ci.worksheet, ci.col_idx) (displayOf kv.1 e, kv.2)
    rw [he]
    refine foldl_establish
      (fun cm2 => CMHas cm2 (ci.worksheet, ci.col_idx) (displayOf kv.1 e, kv.2))
      _ e.clusters ci hci (fun cm2 => ?_) (fun cm2 ci2 _ hcm2 => ?_) cm
    · exact cmAdd_self cm2 ci _ _ _
    · exact cmAdd_mono cm2 ci2 _ _ _ _ _ hcm2
  · show CMHas
      ((((alookup p.1 idx).getD ⟨[], [], 0⟩).clusters).foldl
        (fun cm2 ci2 => cmAdd cm2 ci2 (displayOf p.1 ((alookup p.1 idx).getD ⟨[], [], 0⟩))
          p.2 ((alookup p.1 idx).getD ⟨[], [], 0⟩).variants) cm)
      (ci.worksheet, ci.col_idx) (displayOf kv.1 e, kv.2)
    refine foldl_preserve_mem
      (fun cm2 => CMHas cm2 (ci.worksheet, ci.col_idx) (displayOf kv.1 e, kv.2))
      _ _ (fun cm2 ci2 _ hcm2 => ?_) cm hcm
    exact cmAdd_mono cm2 ci2 _ _ _ _ _ hcm2

/-- C4: for every index, query and threshold the search result holds at most
one group per cluster identity: the `searchCM` keys (worksheet, column) are
distinct and mirror the stored cluster, `search_songs` is one `mkResult` per
group (or empty at the guards), and every matched key's hit for a cluster is
accumulated into that cluster's single group. -/
theorem claim_C4_one_result_per_cluster_identity (query : Str)
    (idx : List (Str × IndexEntry)) (t : Nat) :
    ((searchCM query idx t).map Prod.fst).Nodup ∧
      (∀ cd ∈ searchCM query idx t,
        cd.1 = ((cd.2.info.worksheet, cd.2.info.col_idx) : Str × Nat)) ∧
      (search_songs query idx t = [] ∨
        search_songs query idx t = (searchCM query idx t).map (fun p => mkResult p.2)) ∧
      ∀ kv ∈ searchAllM query idx t, ∀ e, alookup kv.1 idx = some e →
        ∀ ci ∈ e.clusters,
          ∃ cd, alookup ((ci.worksheet, ci.col_idx) : Str × Nat) (searchCM query idx t) =
              some cd ∧
            ((displayOf kv.1 e, kv.2) : Str × Score) ∈ cd.matched := by
  refine ⟨(searchCM_cmok query idx t).1,
    fun cd hcd => ((searchCM_cmok query idx t).2 cd hcd).1, ?_, ?_⟩
  · unfold search_songs
    by_cases h1 : query = []
    · rw [if_pos h1]
      exact Or.inl rfl
    · rw [if_neg h1]
      by_cases h2 : searchAllM query idx t = []
      · rw [if_pos h2]
        exact Or.inl rfl
      · rw [if_neg h2]
        exact Or.inr rfl
  · intro kv hkv e he ci hci
    exact searchCM_has query idx t kv hkv e he ci hci

theorem substrOccurs_nil (s : Str) : substrOccurs [] s = true := by
  unfold substrOccurs
  exact List.any_eq_true.mpr ⟨0, by simp, by simp⟩

theorem searchExact_keys_nodup (qn : Str) (names : List Str) (hnd : names.Nodup) :
    ((searchExact qn names).map Prod.fst).Nodup := by
  unfold searchExact
  rw [List.map_map]
  have h : (names.filter (fun n => substrOccurs qn n)).map
      (Prod.fst ∘ fun n => (n, (⟨100, 1⟩ : Score))) =
      names.filter (fun n => substrOccurs qn n) := by
    rw [show (Prod.fst ∘ fun n : Str => (n, (⟨100, 1⟩ : Score))) = id from rfl]
    exact List.map_id _
  rw [h]
  exact hnd.filter _

theorem searchAllM_exact_lookup (query : Str) (idx : List (Str × IndexEntry)) (t : Nat)
    (hq : query ≠ []) (hnd : (idx.map Prod.fst).Nodup) (k : Str)
    (hk : k ∈ idx.map Prod.fst)
    (hsub : substrOccurs (normalize_song_name query) k = true) :
    alookup k (searchAllM query idx t) = some (⟨100, 1⟩ : Score) := by
  unfold searchAllM
  rw [if_neg hq]
  refine alookup_foldl_dinsert_mem _ k (⟨100, 1⟩ : Score) _ ?_ ?_
  · exact searchExact_keys_nodup _ _ hnd
  · exact List.mem_map.mpr ⟨k, List.mem_filter.mpr ⟨hk, hsub⟩, rfl⟩

/-- C10: a non-empty query that normalizes to the empty string (such as pure
whitespace) passes the raw-query guard, and the empty normalized query is a
substring of every key, so every key of the index ends in `all_matches` at
score exactly 100. -/
theorem claim_C10_blank_normalized_query_matches_all (query : Str)
    (idx : List (Str × IndexEntry)) (t : Nat) (hq : query ≠ [])
    (hn : normalize_song_name query = []) (hnd : (idx.map Prod.fst).Nodup) :
    ∀ k ∈ idx.map Prod.fst,
      alookup k (searchAllM query idx t) = some (⟨100, 1⟩ : Score) := by
  intro k hk
  refine searchAllM_exact_lookup query idx t hq hnd k hk ?_
  rw [hn]
  exact substrOccurs_nil k

theorem claim_C10_blank_normalized_query_matches_all_witness :
    (((" ").data ≠ ([] : Str)) ∧ normalize_song_name ((" ").data) = [] ∧
        ((build_song_index [sheetA]).map Prod.fst).Nodup) ∧
      ∀ k ∈ (build_song_index [sheetA]).map Prod.fst,
        alookup k (searchAllM ((" ").data) (build_song_index [sheetA]) 70) =
          some (⟨100, 1⟩ : Score) :=
  ⟨⟨by decide, by decide, by decide⟩,
    claim_C10_blank_normalized_query_matches_all ((" ").data) (build_song_index [sheetA])
      70 (by decide) (by decide) (by decide)⟩

/-- C1: for any index with distinct keys, any threshold and any non-empty
query, a key containing the normalized query as a literal substring ends in
`all_matches` at exactly 100 — the substring override is applied after the
fuzzy step and is never replaced by a lower fuzzy score — and the hit is
recorded at score 100 in every cluster group the key belongs to. -/
theorem claim_C1_substring_match_scores_100 (query : Str)
    (idx : List (Str × IndexEntry)) (t : Nat) (hq : query ≠ [])
    (hnd : (idx.map Prod.fst).Nodup) (k : Str) (hk : k ∈ idx.map Prod.fst)
    (hsub : substrOccurs (normalize_song_name query) k = true) :
    alookup k (searchAllM query idx t) = some (⟨100, 1⟩ : Score) ∧
      ∀ e, alookup k idx = some e → ∀ ci ∈ e.clusters,
        ∃ cd, alookup ((ci.worksheet, ci.col_idx) : Str × Nat) (searchCM query idx t) =
            some cd ∧
          ((displayOf k e, (⟨100, 1⟩ : Score)) : Str × Score) ∈ cd.matched := by
  have ha := searchAllM_exact_lookup query idx t hq hnd k hk hsub
  refine ⟨ha, ?_⟩
  intro e he ci hci
  exact searchCM_has query idx t (k, ⟨100, 1⟩) (mem_of_alookup _ _ _ ha) e he ci hci

theorem claim_C1_substring_match_scores_100_witness :
    ((("a").data ≠ ([] : Str)) ∧ ((build_song_index [sheetA]).map Prod.fst).Nodup ∧
        (("a - b").data) ∈ (build_song_index [sheetA]).map Prod.fst ∧
        substrOccurs (normalize_song_name (("a").data)) (("a - b").data) = true) ∧
      (alookup (("a - b").data) (searchAllM (("a").data) (build_song_index [sheetA]) 70) =
          some (⟨100, 1⟩ : Score) ∧
        ∀ e, alookup (("a - b").data) (build_song_index [sheetA]) = some e →
          ∀ ci ∈ e.clusters,
            ∃ cd, alookup ((ci.worksheet, ci.col_idx) : Str × Nat)
                (searchCM (("a").data) (build_song_index [sheetA]) 70) = some cd ∧
              ((displayOf (("a - b").data) e, (⟨100, 1⟩ : Score)) : Str × Score) ∈
                cd.matched) :=
  ⟨⟨by decide, by decide, by decide, by decide⟩,
    claim_C1_substring_match_scores_100 (("a").data) (build_song_index [sheetA]) 70
      (by decide) (by decide) (("a - b").data) (by decide) (by decide)⟩

theorem searchExact_keys_eq (qn : Str) (names : List Str) :
    (searchExact qn names).map Prod.fst = names.filter (fun n => substrOccurs qn n) := by
  unfold searchExact
  rw [List.map_map]
  rw [show (Prod.fst ∘ fun n : Str => (n, (⟨100, 1⟩ : Score))) = id from rfl]
  exact List.map_id _

theorem map_fst_map_pair (qn : Str) :
    ∀ l : List Str, (l.map (fun n => (n, tokenSortSim qn n))).map Prod.fst = l := by
  intro l
  induction l with
  | nil => rfl
  | cons a t ih => simp [ih]

theorem searchCandidates_keys_nodup (qn : Str) (names : List Str) (t : Nat)
    (hnd : names.Nodup) : ((searchCandidates qn names t).map Prod.fst).Nodup := by
  unfold searchCandidates
  have h2 : (((names.map (fun n => (n, tokenSortSim qn n))).filter
      (fun p => scoreAtLeastNat p.2 t)).map Prod.fst).Nodup := by
    refine List.Nodup.sublist (List.Sublist.map Prod.fst (List.filter_sublist _)) ?_
    rw [map_fst_map_pair]
    exact hnd
  have h3 : ((sortStable (fun a b : Str × Score => Score.lt b.2 a.2)
      ((names.map (fun n => (n, tokenSortSim qn n))).filter
        (fun p => scoreAtLeastNat p.2 t))).map Prod.fst).Nodup :=
    (((sortStable_perm _ _).map Prod.fst).nodup_iff).mpr h2
  exact List.Nodup.sublist (List.Sublist.map Prod.fst (List.take_sublist _ _)) h3

theorem searchCandidates_mem_of_small (qn : Str) (names : List Str) (t : Nat)
    (hlen : names.length ≤ 100) (k : Str) (hk : k ∈ names)
    (hcut : scoreAtLeastNat (tokenSortSim qn k) t = true) :
    (k, tokenSortSim qn k) ∈ searchCandidates qn names t := by
  unfold searchCandidates
  have hlen2 : (sortStable (fun a b : Str × Score => Score.lt b.2 a.2)
      ((names.map (fun n => (n, tokenSortSim qn n))).filter
        (fun p => scoreAtLeastNat p.2 t))).length ≤ 100 := by
    rw [(sortStable_perm _ _).length_eq]
    exact le_trans (List.length_filter_le _ _) (by simpa using hlen)
  rw [List.take_of_length_le hlen2]
  exact (sortStable_perm _ _).mem_iff.mpr
    (List.mem_filter.mpr ⟨List.mem_map.mpr ⟨k, hk, rfl⟩, hcut⟩)

theorem searchAllM_fuzzy_lookup (query : Str) (idx : List (Str × IndexEntry)) (t : Nat)
    (hq : query ≠ []) (hnd : (idx.map Prod.fst).Nodup) (hlen : idx.length ≤ 100)
    (k : Str) (hk : k ∈ idx.map Prod.fst)
    (hnsub : substrOccurs (normalize_song_name query) k = false)
    (hcut : scoreAtLeastNat (tokenSortSim (normalize_song_name query) k) t = true) :
    alookup k (searchAllM query idx t) =
      some (tokenSortSim (normalize_song_name query) k) := by
  unfold searchAllM
  rw [if_neg hq]
  have hne : k ∉ (searchExact (normalize_song_name query) (idx.map Prod.fst)).map
      Prod.fst := by
    rw [searchExact_keys_eq]
    intro hm
    have h4 := List.of_mem_filter hm
    rw [hnsub] at h4
    exact absurd h4 (by simp)
  rw [alookup_foldl_dinsert_not_mem _ k _ hne]
  exact alookup_foldl_dinsert_mem _ k _ _ (searchCandidates_keys_nodup _ _ _ hnd)
    (searchCandidates_mem_of_small _ _ _ (by simpa using hlen) k hk hcut)

/-- One hundred filler keys: the query text plus `i+1` trailing blanks, all
distinct, all token-sort-identical to the query (score 100). -/
def c6fill : List Str :=
  (List.range 100).map (fun i => ("amadeus rock me").data ++ List.replicate (i + 1) ' ')

/-- A 101-key index: the hundred fillers followed by the claimed key. -/
def c6idx : List (Str × IndexEntry) :=
  (c6fill.map (fun n => (n, (⟨[], [], 0⟩ : IndexEntry)))) ++
    [((("falco - rock me amadeus").data), (⟨[], [], 0⟩ : IndexEntry))]

set_option maxRecDepth 100000 in
set_option maxHeartbeats 4000000 in
/-- Counterexample to C6 as stated: in an index that contains the key
`"falco - rock me amadeus"` together with 100 higher-scoring keys, the
100-candidate cap of the fuzzy step evicts the key, and the query
`"amadeus rock me"` at threshold 70 does not return it at all — even though
its token-sort score clears the threshold. -/
theorem claim_C6_counterexample_candidate_cap :
    (("falco - rock me amadeus").data) ∈ c6idx.map Prod.fst ∧
      scoreAtLeastNat (tokenSortSim (normalize_song_name (("amadeus rock me").data))
        (("falco - rock me amadeus").data)) 70 = true ∧
      alookup (("falco - rock me amadeus").data)
        (searchAllM (("amadeus rock me").data) c6idx 70) = none := by decide

/-- C6 (corrected): for an index of at most 100 distinct keys containing
`"falco - rock me amadeus"`, the reordered query `"amadeus rock me"` at
threshold 70 does return that key with a token-sort score clearing the
threshold. The size bound is necessary: the fuzzy step keeps only the 100
best candidates, and the key can be evicted (see the counterexample). -/
theorem claim_C6_token_sort_reordering (idx : List (Str × IndexEntry))
    (hnd : (idx.map Prod.fst).Nodup) (hlen : idx.length ≤ 100)
    (hk : (("falco - rock me amadeus").data) ∈ idx.map Prod.fst) :
    ∃ sc : Score, alookup (("falco - rock me amadeus").data)
        (searchAllM (("amadeus rock me").data) idx 70) = some sc ∧
      scoreAtLeastNat sc 70 = true := by
  refine ⟨tokenSortSim (normalize_song_name (("amadeus rock me").data))
    (("falco - rock me amadeus").data), ?_, by decide⟩
  exact searchAllM_fuzzy_lookup (("amadeus rock me").data) idx 70 (by decide) hnd hlen
    (("falco - rock me amadeus").data) hk (by decide) (by decide)

/-- A one-entry index holding only the key `"falco - rock me amadeus"`. -/
def c6small : List (Str × IndexEntry) :=
  [((("falco - rock me amadeus").data), (⟨[], [], 0⟩ : IndexEntry))]

theorem claim_C6_token_sort_reordering_witness :
    ((c6small.map Prod.fst).Nodup ∧ c6small.length ≤ 100 ∧
        (("falco - rock me amadeus").data) ∈ c6small.map Prod.fst) ∧
      ∃ sc : Score, alookup (("falco - rock me amadeus").data)
          (searchAllM (("amadeus rock me").data) c6small 70) = some sc ∧
        scoreAtLeastNat sc 70 = true :=
  ⟨⟨by decide, by decide, by decide⟩,
    claim_C6_token_sort_reordering c6small (by decide) (by decide) (by decide)⟩

theorem score_lt_irrefl (a : Score) : Score.lt a a = false := by
  simp [Score.lt]

theorem simScore_den_pos (a b : Str) : 0 < (simScore a b).den := by
  unfold simScore
  by_cases h : a.length + b.length = 0
  · rw [if_pos h]
    decide
  · rw [if_neg h]
    show 0 < a.length + b.length
    omega

theorem searchAllM_den_pos (query : Str) (idx : List (Str × IndexEntry)) (t : Nat) :
    ∀ kv ∈ searchAllM query idx t, 0 < kv.2.den := by
  intro kv h
  rcases searchAllM_cases query idx t kv h with h2 | h2
  · rw [(mem_searchExact _ _ _ h2).2.2]
    decide
  · rw [(mem_searchCandidates _ _ _ _ h2).2.1]
    exact simScore_den_pos _ _

/-- C7: within each search result over a built index, the hit list pairs
names with scores in descending score order, carries each display name once
(`matched_songs` mirrors the names), keeps the maximal score for a repeated
display name, and every hit name is the display name (`displayOf`) of a
matched key whose variant set is in sort order. -/
theorem claim_C7_hit_list_shape (ws : List Sheet) (query : Str) (t : Nat)
    (r : SearchResult) (hr : r ∈ search_songs query (build_song_index ws) t) :
    r.matched_songs = r.match_scores.map Prod.fst ∧
      (r.match_scores.map Prod.fst).Nodup ∧
      r.match_scores.Pairwise (fun a b => Score.lt a.2 b.2 = false) ∧
      (∀ x ∈ r.match_scores, ∃ k e, alookup k (build_song_index ws) = some e ∧
        x.1 = displayOf k e ∧ e.variants.Pairwise (fun a b => ltStr b a = false)) ∧
      ∃ cd ∈ searchCM query (build_song_index ws) t, r = mkResult cd.2 ∧
        ∀ x ∈ r.match_scores, x ∈ cd.2.matched ∧
          ∀ y ∈ cd.2.matched, y.1 = x.1 → Score.lt x.2 y.2 = false := by
  unfold search_songs at hr
  by_cases h1 : query = []
  · rw [if_pos h1] at hr
    exact absurd hr (by simp)
  rw [if_neg h1] at hr
  by_cases h2 : searchAllM query (build_song_index ws) t = []
  · rw [if_pos h2] at hr
    exact absurd hr (by simp)
  rw [if_neg h2] at hr
  obtain ⟨cd, hcd, rfl⟩ := List.mem_map.mp hr
  have hprov := ((searchCM_cmok query (build_song_index ws) t).2 cd hcd).2.2
  have hden : ∀ x ∈ cd.2.matched, 0 < x.2.den := by
    intro x hx
    obtain ⟨kv, hkv, e, he, hxeq⟩ := hprov x hx
    rw [hxeq]
    exact searchAllM_den_pos query _ t kv hkv
  have hpw : (sortStable (fun a b : Str × Score => Score.lt b.2 a.2) cd.2.matched).Pairwise
      (fun a b => Score.lt a.2 b.2 = false) :=
    sortStable_pairwise (fun a b : Str × Score => Score.lt b.2 a.2) cd.2.matched
      (fun a b h => score_lt_asymm _ _ h)
      (fun a b c hb hba hcb => score_lt_negtrans c.2 b.2 a.2 (hden b hb) hcb hba)
  have hsubS : ∀ x ∈ (mkResult cd.2).match_scores,
      x ∈ sortStable (fun a b : Str × Score => Score.lt b.2 a.2) cd.2.matched :=
    fun x hx => (dedupeFirst_sublist _ []).mem hx
  have hsubM : ∀ x ∈ (mkResult cd.2).match_scores, x ∈ cd.2.matched :=
    fun x hx => (sortStable_perm _ _).mem_iff.mp (hsubS x hx)
  refine ⟨rfl, dedupeFirst_names_nodup _ _, ?_, ?_, cd, hcd, rfl, ?_⟩
  · exact List.Pairwise.sublist (dedupeFirst_sublist _ []) hpw
  · intro x hx
    obtain ⟨kv, hkv, e, he, hxeq⟩ := hprov x (hsubM x hx)
    refine ⟨kv.1, e, he, by rw [hxeq], ?_⟩
    have hmem := mem_of_alookup _ _ _ he
    unfold build_song_index at hmem
    obtain ⟨q, hq, heq⟩ := List.mem_map.mp hmem
    have hv : e.variants = sortStrs q.2.1 := by
      have h5 : (finalizeEntry q).2.variants = sortStrs q.2.1 := rfl
      rw [heq] at h5
      exact h5
    rw [hv]
    exact sortStrs_pairwise q.2.1
  · intro x hx
    refine ⟨hsubM x hx, ?_⟩
    intro y hy hyx
    obtain ⟨n, s⟩ := x
    obtain ⟨m, s2⟩ := y
    have hyx2 : m = n := hyx
    subst hyx2
    have hyS : ((m, s2) : Str × Score) ∈
        sortStable (fun a b : Str × Score => Score.lt b.2 a.2) cd.2.matched :=
      (sortStable_perm _ _).mem_iff.mpr hy
    rcases dedupeFirst_max _ [] hpw m s hx s2 hyS with h5 | h5
    · rw [h5]
      exact score_lt_irrefl s
    · exact h5

theorem claim_C7_hit_list_shape_witness :
    ((search_songs (("a").data) (build_song_index [sheetA]) 70).headD
        (⟨[], [], [], [], [], [], [], []⟩ : SearchResult) ∈
      search_songs (("a").data) (build_song_index [sheetA]) 70) ∧
      (((search_songs (("a").data) (build_song_index [sheetA]) 70).headD
          (⟨[], [], [], [], [], [], [], []⟩ : SearchResult)).matched_songs =
        ((search_songs (("a").data) (build_song_index [sheetA]) 70).headD
          (⟨[], [], [], [], [], [], [], []⟩ : SearchResult)).match_scores.map Prod.fst ∧
        (((search_songs (("a").data) (build_song_index [sheetA]) 70).headD
          (⟨[], [], [], [], [], [], [], []⟩ : SearchResult)).match_scores.map
            Prod.fst).Nodup ∧
        ((search_songs (("a").data) (build_song_index [sheetA]) 70).headD
          (⟨[], [], [], [], [], [], [], []⟩ : SearchResult)).match_scores.Pairwise
            (fun a b => Score.lt a.2 b.2 = false) ∧
        (∀ x ∈ ((search_songs (("a").data) (build_song_index [sheetA]) 70).headD
            (⟨[], [], [], [], [], [], [], []⟩ : SearchResult)).match_scores,
          ∃ k e, alookup k (build_song_index [sheetA]) = some e ∧
            x.1 = displayOf k e ∧
            e.variants.Pairwise (fun a b => ltStr b a = false)) ∧
        ∃ cd ∈ searchCM (("a").data) (build_song_index [sheetA]) 70,
          (search_songs (("a").data) (build_song_index [sheetA]) 70).headD
              (⟨[], [], [], [], [], [], [], []⟩ : SearchResult) = mkResult cd.2 ∧
          ∀ x ∈ ((search_songs (("a").data) (build_song_index [sheetA]) 70).headD
              (⟨[], [], [], [], [], [], [], []⟩ : SearchResult)).match_scores,
            x ∈ cd.2.matched ∧
              ∀ y ∈ cd.2.matched, y.1 = x.1 → Score.lt x.2 y.2 = false) :=
  ⟨by decide, claim_C7_hit_list_shape [sheetA] (("a").data) 70 _ (by decide)⟩
